import Mathlib

/-!
# kittens_trace: scope tracing and Chrome-trace serialisation

A shallow embedding of `src/sources/trace.cpp` (with the public interface of
`src/kittens_trace/trace.h`) and the properties established about it.

Modelling conventions.

* An output stream is the `String` of the characters written to it so far;
  `stream << x` appends the text of `x`.  Integers are printed by `operator<<`
  in decimal, which is what `toString` does on `Nat` and `Int`.
* `std::deque<TraceMarker>` is a `List TraceMarker`; a `TraceMarker*` into the
  deque is the position of the slot it designates.  `push_back` leaves such a
  pointer valid and `clear` invalidates it for good; a position says the former
  and not the latter, so which pointers are valid is read off the schedule
  (`validHandles`) wherever a flush can run while a guard is alive.
* The registry `m_traceThreads` holds its buffers in registration order;
  a thread reaches its own buffer through the position of that buffer.
* The clock reading `high_resolution_clock::now()` (in microseconds) is an
  explicit argument of every operation that reads the clock.
-/

namespace kitten

/-! ## Data model -/

/-- One recorded scope: `struct TraceMarker`. -/
structure TraceMarker where
  m_file : String
  m_func : String
  m_begin : Int
  m_end : Int
  m_line : Int
deriving DecidableEq, Repr

/-- All markers collected on one thread: `struct TraceThreadMarkers`. -/
structure TraceThreadMarkers where
  m_markers : List TraceMarker
  m_threadName : String
  m_threadId : Nat
deriving DecidableEq, Repr

/-- The process-wide registry: `class TraceManager` (the mutex carries no data). -/
structure TraceManager where
  m_traceThreads : List TraceThreadMarkers
deriving DecidableEq, Repr

/-- Class `TraceThreadManager`: `m_markers` and `m_markersPtr` designate the same
buffer, the one the constructor registers; it is kept as the position of that
buffer in the registry. -/
structure TraceThreadManager where
  m_markersPtr : Nat
deriving DecidableEq, Repr

/-! ## Serialisation -/

/-- Method `TraceMarker::write`: the eighteen stream statements, in source order. -/
def TraceMarker.write (self : TraceMarker) (stream : String) (threadId : Nat) : String :=
  let stream := stream ++ "\x7b"
  let stream := stream ++ "\"pid\":1,"
  let stream := stream ++ "\"tid\":" ++ toString threadId ++ ","
  let stream := stream ++ "\"ts\":" ++ toString self.m_begin ++ ","
  let stream := stream ++ "\"ph\":\"B\","
  let stream := stream ++ "\"cat\":" ++ "\"high\"" ++ ","
  let stream := stream ++ "\"name\":\"" ++ self.m_func ++ "\","
  let stream := stream ++ "\"args\":\x7b\x7d"
  let stream := stream ++ "\x7d,\n"
  let stream := stream ++ "\x7b"
  let stream := stream ++ "\"pid\":1,"
  let stream := stream ++ "\"tid\":" ++ toString threadId ++ ","
  let stream := stream ++ "\"ts\":" ++ toString self.m_end ++ ","
  let stream := stream ++ "\"ph\":\"E\","
  let stream := stream ++ "\"cat\":" ++ "\"high\"" ++ ","
  let stream := stream ++ "\"name\":\"" ++ self.m_func ++ "\","
  let stream := stream ++ "\"args\":\x7b\x7d"
  stream ++ "\x7d"

/-- One iteration of the loop of `TraceThreadMarkers::write`; the state is the
stream together with the flag `isFirst`. -/
def TraceThreadMarkers.writeStep (threadId : Nat) (acc : String × Bool)
    (marker : TraceMarker) : String × Bool :=
  let stream := if acc.2 then acc.1 else acc.1 ++ ",\n"
  (marker.write stream threadId, false)

/-- Method `TraceThreadMarkers::write`: the loop over `m_markers`. -/
def TraceThreadMarkers.write (self : TraceThreadMarkers) (stream : String) : String :=
  (self.m_markers.foldl (TraceThreadMarkers.writeStep self.m_threadId) (stream, true)).1

/-- One iteration of the loop of `TraceManager::writeAll`: a buffer without
markers is skipped by `continue`, leaving stream and flag untouched. -/
def TraceManager.writeAllStep (acc : String × Bool)
    (traceThread : TraceThreadMarkers) : String × Bool :=
  if traceThread.m_markers.isEmpty then acc
  else
    let stream := if acc.2 then acc.1 else acc.1 ++ ",\n"
    (traceThread.write stream, false)

/-- Method `TraceManager::writeAll`: the loop over `m_traceThreads`, under the
registry mutex. -/
def TraceManager.writeAll (self : TraceManager) (stream : String) : String :=
  (self.m_traceThreads.foldl TraceManager.writeAllStep (stream, true)).1

/-- Method `TraceManager::clearAll`: every registered buffer gets `m_markers.clear()`. -/
def TraceManager.clearAll (self : TraceManager) : TraceManager :=
  { self with m_traceThreads :=
      self.m_traceThreads.map (fun traceThread => { traceThread with m_markers := [] }) }

/-- Function `saveCollectedTracing`: the text written to the file, which is taken
to open (and is truncated by the opening), and the registry as the call leaves
it. -/
def saveCollectedTracing (s_traceManager : TraceManager) : String × TraceManager :=
  let stream := ""
  let stream := stream ++ "[\n"
  let stream := s_traceManager.writeAll stream
  let s_traceManager := s_traceManager.clearAll
  let stream := stream ++ "\n]\n"
  (stream, s_traceManager)

/-! ## Reference wording of the file format -/

/-- Pieces of text, each preceded by the separator. -/
def sepConcat (sep : String) : List String → String
  | [] => ""
  | a :: l => sep ++ a ++ sepConcat sep l

/-- The serialisations of the markers of one buffer, in insertion order, each
with the thread id of the buffer. -/
def TraceThreadMarkers.texts (self : TraceThreadMarkers) : List String :=
  self.m_markers.map (fun marker => marker.write "" self.m_threadId)

/-- The serialisations of all markers of the registry: buffers in registration
order, markers in insertion order. -/
def TraceManager.texts (self : TraceManager) : List String :=
  self.m_traceThreads.flatMap TraceThreadMarkers.texts

/-! ### Event objects -/

/-- The phase of an event object: begin or end. -/
inductive Phase where
  | B
  | E
deriving DecidableEq, Repr

/-- The letter that stands for the phase in the file. -/
def Phase.letter : Phase → String
  | .B => "B"
  | .E => "E"

/-- An event object of the file format, by the fields that vary: thread id,
timestamp, phase and name. -/
structure TraceEvent where
  tid : Nat
  ts : Int
  ph : Phase
  name : String
deriving DecidableEq, Repr

/-- The text of an event object as the file format words it: process id 1, the
thread id, the timestamp, the phase, category `high`, the name, no arguments. -/
def TraceEvent.render (e : TraceEvent) : String :=
  "\x7b\"pid\":1,\"tid\":" ++ toString e.tid ++ ",\"ts\":" ++ toString e.ts
    ++ ",\"ph\":\"" ++ e.ph.letter ++ "\",\"cat\":\"high\",\"name\":\"" ++ e.name
    ++ "\",\"args\":\x7b\x7d\x7d"

/-- The two event objects of a marker recorded by the thread `threadId`. -/
def TraceMarker.events (self : TraceMarker) (threadId : Nat) : List TraceEvent :=
  [⟨threadId, self.m_begin, .B, self.m_func⟩, ⟨threadId, self.m_end, .E, self.m_func⟩]

/-- The markers of the registry, each with the thread id of the buffer it is in:
buffers in registration order, markers in insertion order. -/
def TraceManager.owned (self : TraceManager) : List (Nat × TraceMarker) :=
  self.m_traceThreads.flatMap (fun b => b.m_markers.map (fun m => (b.m_threadId, m)))

/-- The event objects of the registry: two per marker, in the order of `owned`. -/
def TraceManager.events (self : TraceManager) : List TraceEvent :=
  self.owned.flatMap (fun p => p.2.events p.1)

namespace Json

/-- White space: space, horizontal tab, line feed, carriage return. -/
def isWs (c : Char) : Bool := c == ' ' || c == '\t' || c == '\n' || c == '\r'

/-- A character that may stand unescaped in a string: any code point from
U+0020 on but the quotation mark and the reverse solidus. -/
def isUnescaped (c : Char) : Bool := decide (32 ≤ c.toNat) && c != '"' && c != '\\'

/-- A character that may follow the reverse solidus in a two-character escape. -/
def isEscape (c : Char) : Bool :=
  c == '"' || c == '\\' || c == '/' || c == 'b' || c == 'f' || c == 'n' || c == 'r' || c == 't'

/-- A decimal digit. -/
def isDigit (c : Char) : Bool := decide (48 ≤ c.toNat) && decide (c.toNat ≤ 57)

/-- A hexadecimal digit. -/
def isHex (c : Char) : Bool :=
  isDigit c || (decide (97 ≤ c.toNat) && decide (c.toNat ≤ 102))
    || (decide (65 ≤ c.toNat) && decide (c.toNat ≤ 70))

/-- A run of white space, possibly empty. -/
def WhiteSpace (w : List Char) : Prop := ∀ c ∈ w, isWs c = true

/-- The characters between the quotation marks of a string: unescaped
characters, two-character escapes, and `u` escapes with four hexadecimal
digits. -/
inductive Chars : List Char → Prop where
  | nil : Chars []
  | plain (c : Char) (s : List Char) : isUnescaped c = true → Chars s → Chars (c :: s)
  | escape (c : Char) (s : List Char) : isEscape c = true → Chars s → Chars ('\\' :: c :: s)
  | unicode (a b c d : Char) (s : List Char) : isHex a = true → isHex b = true →
      isHex c = true → isHex d = true → Chars s → Chars ('\\' :: 'u' :: a :: b :: c :: d :: s)

/-- One digit or more. -/
def Digits (s : List Char) : Prop := s ≠ [] ∧ ∀ c ∈ s, isDigit c = true

/-- The integer part of a number: a zero, or digits of which the first is not a
zero. -/
def IntPart (s : List Char) : Prop :=
  s = ['0'] ∨ ∃ d ds, s = d :: ds ∧ isDigit d = true ∧ d ≠ '0' ∧ ∀ c ∈ ds, isDigit c = true

/-- The optional fraction part: a point and digits. -/
def FracPart (s : List Char) : Prop := s = [] ∨ ∃ ds, s = '.' :: ds ∧ Digits ds

/-- The optional exponent part: `e` or `E`, an optional sign, digits. -/
def ExpPart (s : List Char) : Prop :=
  s = [] ∨ ∃ e sign ds, s = e :: (sign ++ ds) ∧ (e = 'e' ∨ e = 'E') ∧
    (sign = [] ∨ sign = ['-'] ∨ sign = ['+']) ∧ Digits ds

/-- A number: optional minus, integer part, optional fraction, optional
exponent. -/
def Number (s : List Char) : Prop :=
  ∃ minus int frac exp, s = minus ++ (int ++ (frac ++ exp)) ∧ (minus = [] ∨ minus = ['-']) ∧
    IntPart int ∧ FracPart frac ∧ ExpPart exp

/-- JSON values; numbers and strings are kept by their text. -/
inductive Value where
  | null
  | bool (b : Bool)
  | number (lexeme : List Char)
  | string (body : List Char)
  | array (items : List Value)
  | object (members : List (List Char × Value))

/-- What a piece of text can stand for: a value, the elements of an array, or
the members of an object. -/
inductive Node where
  | value (v : Value)
  | elements (vs : List Value)
  | members (ms : List (List Char × Value))

/-- The JSON grammar of RFC 8259: `Parses s n` says that the characters `s` are
a text for `n`.  A value carries no white space around it; the elements of an
array and the members of an object carry theirs. -/
inductive Parses : List Char → Node → Prop where
  | null : Parses ['n', 'u', 'l', 'l'] (.value .null)
  | true : Parses ['t', 'r', 'u', 'e'] (.value (.bool Bool.true))
  | false : Parses ['f', 'a', 'l', 's', 'e'] (.value (.bool Bool.false))
  | number (s : List Char) : Number s → Parses s (.value (.number s))
  | string (s : List Char) : Chars s → Parses ('"' :: (s ++ ['"'])) (.value (.string s))
  | arrayEmpty (w : List Char) : WhiteSpace w → Parses ('[' :: (w ++ [']'])) (.value (.array []))
  | array (s : List Char) (vs : List Value) : Parses s (.elements vs) →
      Parses ('[' :: (s ++ [']'])) (.value (.array vs))
  | objectEmpty (w : List Char) : WhiteSpace w →
      Parses ('{' :: (w ++ ['}'])) (.value (.object []))
  | object (s : List Char) (ms : List (List Char × Value)) : Parses s (.members ms) →
      Parses ('{' :: (s ++ ['}'])) (.value (.object ms))
  | element (w₁ s w₂ : List Char) (v : Value) : WhiteSpace w₁ → Parses s (.value v) →
      WhiteSpace w₂ → Parses (w₁ ++ (s ++ w₂)) (.elements [v])
  | elements (w₁ s w₂ rest : List Char) (v : Value) (vs : List Value) : WhiteSpace w₁ →
      Parses s (.value v) → WhiteSpace w₂ → Parses rest (.elements vs) →
      Parses (w₁ ++ (s ++ (w₂ ++ ',' :: rest))) (.elements (v :: vs))
  | member (w₁ k w₂ w₃ s w₄ : List Char) (v : Value) : WhiteSpace w₁ → Chars k →
      WhiteSpace w₂ → WhiteSpace w₃ → Parses s (.value v) → WhiteSpace w₄ →
      Parses (w₁ ++ '"' :: (k ++ '"' :: (w₂ ++ ':' :: (w₃ ++ (s ++ w₄))))) (.members [(k, v)])
  | members (w₁ k w₂ w₃ s w₄ rest : List Char) (v : Value) (ms : List (List Char × Value)) :
      WhiteSpace w₁ → Chars k → WhiteSpace w₂ → WhiteSpace w₃ → Parses s (.value v) →
      WhiteSpace w₄ → Parses rest (.members ms) →
      Parses (w₁ ++ '"' :: (k ++ '"' :: (w₂ ++ ':' :: (w₃ ++ (s ++ (w₄ ++ ',' :: rest))))))
        (.members ((k, v) :: ms))

/-- A JSON text: a value with white space around it. -/
def Text (s : List Char) (v : Value) : Prop :=
  ∃ w₁ body w₂, WhiteSpace w₁ ∧ Parses body (.value v) ∧ WhiteSpace w₂ ∧ s = w₁ ++ (body ++ w₂)

/-- Where a scan of a text stands: outside of any string, inside a string, or
right after a reverse solidus inside a string. -/
inductive LexState where
  | outside
  | inString
  | escaped
deriving DecidableEq, Repr

/-- The characters that occur outside of strings in a JSON text. -/
def isStructural (c : Char) : Bool :=
  isWs c || isDigit c ||
    ['-', '+', '.', 'e', 'E', '[', ']', '{', '}', ':', ',', 't', 'r', 'u', 'f', 'a', 'l', 's',
      'n'].contains c

/-- One character of the scan; `none` when no JSON text can go on with it. -/
def lexStep : LexState → Char → Option LexState
  | .outside, c =>
    if c == '"' then some .inString
    else if isStructural c then some .outside
    else none
  | .inString, c =>
    if c == '"' then some .outside
    else if c == '\\' then some .escaped
    else if decide (32 ≤ c.toNat) then some .inString
    else none
  | .escaped, c => if isEscape c || c == 'u' then some .inString else none

/-- The scan of a run of characters. -/
def lexRun : LexState → List Char → Option LexState
  | st, [] => some st
  | st, c :: s =>
    match lexStep st c with
    | none => none
    | some st' => lexRun st' s

/-- A member without white space, last of its object. -/
def memberText (k s : List Char) : List Char := '"' :: (k ++ '"' :: ':' :: s)

/-- A member without white space, followed by a comma and more members. -/
def membersText (k s rest : List Char) : List Char :=
  '"' :: (k ++ '"' :: ':' :: (s ++ ',' :: rest))

/-- A string literal with the given body. -/
def quoted (s : List Char) : List Char := '"' :: (s ++ ['"'])

end Json

/-- The JSON value of an event object. -/
def TraceEvent.toJson (e : TraceEvent) : Json.Value :=
  .object
    [("pid".toList, .number "1".toList),
     ("tid".toList, .number (toString e.tid).toList),
     ("ts".toList, .number (toString e.ts).toList),
     ("ph".toList, .string e.ph.letter.toList),
     ("cat".toList, .string "high".toList),
     ("name".toList, .string e.name.toList),
     ("args".toList, .object [])]

/-- The text between the brackets for a non-empty list of events: a newline
before every event, a comma after every event but the last, a newline at the
end. -/
def elementsText : List TraceEvent → List Char
  | [] => []
  | [e] => '\n' :: (e.render.toList ++ ['\n'])
  | e :: e' :: es => '\n' :: (e.render.toList ++ ',' :: elementsText (e' :: es))

/-! ## Recording -/

/-- Class `ScopedTrace`: its one member is the pointer `m_marker`, the position of
a slot in the deque of the thread that constructed the guard. -/
structure ScopedTrace where
  m_marker : Nat
deriving DecidableEq, Repr

/-- Method `TraceThreadManager::createMarker`, as a function of the buffer that
`m_markersPtr` designates: `push_back(TraceMarker())` appends a value-initialised marker (empty
views, zero numbers) and the result is the address of `back()`. -/
def TraceThreadManager.createMarker (buf : TraceThreadMarkers) : TraceThreadMarkers × Nat :=
  let m_markers := buf.m_markers ++ [TraceMarker.mk "" "" 0 0 0]
  ({ buf with m_markers := m_markers }, m_markers.length - 1)

/-- An assignment through a marker pointer, `p->field = value`, as the update `f`
of the marker in slot `p`.  When the deque has no slot `p` the pointer dangles
and the write has no defined result.  A slot that is present does not by itself
make the pointer valid: after `clear` and further `push_back` the position is
taken by the marker of a later guard, while the pointer taken before the clear
stays invalid in the program.  The result here is that of the program for valid
pointers only; `validHandles` tells for which guards that is. -/
def TraceThreadMarkers.store (buf : TraceThreadMarkers) (p : Nat)
    (f : TraceMarker → TraceMarker) : Option TraceThreadMarkers :=
  match buf.m_markers[p]? with
  | some marker => some { buf with m_markers := buf.m_markers.set p (f marker) }
  | none => none

/-- Constructor `ScopedTrace::ScopedTrace(file, func, line)` on the calling thread's buffer,
with `now` the clock reading taken for `m_begin`. -/
def ScopedTrace.ctor (buf : TraceThreadMarkers) (file func : String) (line : Int) (now : Int) :
    Option (TraceThreadMarkers × ScopedTrace) := do
  let (buf, m_marker) := TraceThreadManager.createMarker buf
  let buf ← buf.store m_marker (fun marker => { marker with m_file := file })
  let buf ← buf.store m_marker (fun marker => { marker with m_func := func })
  let buf ← buf.store m_marker (fun marker => { marker with m_line := line })
  let buf ← buf.store m_marker (fun marker => { marker with m_begin := now })
  let buf ← buf.store m_marker (fun marker => { marker with m_end := marker.m_begin })
  pure (buf, { m_marker := m_marker })

/-- Destructor `ScopedTrace::~ScopedTrace()`, with `now` the clock reading taken for `m_end`. -/
def ScopedTrace.dtor (self : ScopedTrace) (buf : TraceThreadMarkers) (now : Int) :
    Option TraceThreadMarkers :=
  buf.store self.m_marker (fun marker => { marker with m_end := now })

/-! ### One thread recording scopes, no flush in between -/

/-- What a thread does to its guards: it constructs one (the `k`-th activation
of the run is the one with `k` activations before it), or it destroys the guard
of activation `k`.  Either reads the clock, giving `now`. -/
inductive ScopeEvent where
  | enter (file func : String) (line : Int) (now : Int)
  | leave (k : Nat) (now : Int)
deriving DecidableEq, Repr

/-- The clock reading of an event. -/
def ScopeEvent.now : ScopeEvent → Int
  | .enter _ _ _ now => now
  | .leave _ now => now

/-- A thread in the middle of recording: its buffer, the number of guards it has
constructed, and the guard objects alive, each with the number of its
activation. -/
structure ThreadRun where
  buf : TraceThreadMarkers
  opened : Nat
  guards : List (Nat × ScopedTrace)
deriving DecidableEq, Repr

/-- One event.  Destroying a guard that is not alive is not an execution of the
program, and a destructor writing through a dangling pointer has no defined
result; both give `none`. -/
def ThreadRun.step (s : ThreadRun) : ScopeEvent → Option ThreadRun
  | .enter file func line now =>
    match ScopedTrace.ctor s.buf file func line now with
    | none => none
    | some (buf, guard) => some ⟨buf, s.opened + 1, (s.opened, guard) :: s.guards⟩
  | .leave k now =>
    match s.guards.lookup k with
    | none => none
    | some guard =>
      match guard.dtor s.buf now with
      | none => none
      | some buf => some ⟨buf, s.opened, s.guards.filter (fun e => e.1 != k)⟩

/-- A sequence of events, in order. -/
def ThreadRun.run (s : ThreadRun) : List ScopeEvent → Option ThreadRun
  | [] => some s
  | e :: es =>
    match s.step e with
    | none => none
    | some s' => s'.run es

/-- Guard discipline, read off the events alone: every `leave k` destroys a guard
that was constructed before and is still alive.  `opened` counts the earlier
activations and `live` lists those whose guard is alive.  Any nesting and any
order of destruction passes. -/
def wellScoped (opened : Nat) (live : List Nat) : List ScopeEvent → Bool
  | [] => true
  | .enter _ _ _ _ :: es => wellScoped (opened + 1) (opened :: live) es
  | .leave k _ :: es => live.contains k && wellScoped opened (live.filter (fun j => j != k)) es

/-- The labels of the guards constructed, in order of activation. -/
def enterLabels : List ScopeEvent → List String
  | [] => []
  | .enter _ func _ _ :: es => func :: enterLabels es
  | .leave _ _ :: es => enterLabels es

/-- Successive clock readings never decrease. -/
def nonDecreasing : List Int → Bool
  | [] => true
  | [_] => true
  | a :: b :: l => decide (a ≤ b) && nonDecreasing (b :: l)

/-- The activation count and the live activations after a sequence of events. -/
def liveAfter (opened : Nat) (live : List Nat) : List ScopeEvent → Nat × List Nat
  | [] => (opened, live)
  | .enter _ _ _ _ :: es => liveAfter (opened + 1) (opened :: live) es
  | .leave k _ :: es => liveAfter opened (live.filter (fun j => j != k)) es

/-- The state a constructor leaves (see `ThreadRun.step_enter`). -/
def ThreadRun.entered (s : ThreadRun) (file func : String) (line now : Int) : ThreadRun :=
  ⟨{ s.buf with m_markers := s.buf.m_markers ++ [⟨file, func, now, now, line⟩] },
    s.opened + 1, (s.opened, ⟨s.buf.m_markers.length⟩) :: s.guards⟩

/-- The state a destructor leaves when slot `k` held `m` (see
`ThreadRun.Inv.step_leave`). -/
def ThreadRun.left (s : ThreadRun) (k : Nat) (m : TraceMarker) (now : Int) : ThreadRun :=
  ⟨{ s.buf with m_markers := s.buf.m_markers.set k { m with m_end := now } },
    s.opened, s.guards.filter (fun e => e.1 != k)⟩

/-- Invariant of a flush-free recording on one thread: the guards alive are those
of the activations in `live`, and the guard of activation `k` points at slot `k`. -/
structure ThreadRun.Inv (s : ThreadRun) (live : List Nat) : Prop where
  opened_eq : s.opened = s.buf.m_markers.length
  guards_eq : s.guards = live.map (fun k => (k, ScopedTrace.mk k))
  live_lt : ∀ k ∈ live, k < s.opened

/-- Every marker is closed no earlier than it began and no later than `T`. -/
def ThreadRun.Timed (s : ThreadRun) (T : Int) : Prop :=
  ∀ m ∈ s.buf.m_markers, m.m_begin ≤ m.m_end ∧ m.m_end ≤ T

/-- Marker `m'` records the same scope entry as `m`: only `m_end` may differ. -/
def TraceMarker.sameEntry (m' m : TraceMarker) : Prop :=
  m'.m_file = m.m_file ∧ m'.m_func = m.m_func ∧ m'.m_begin = m.m_begin ∧ m'.m_line = m.m_line

/-! ## The process: registry, threads, guards and flushes -/

/-- Method `TraceManager::addThreadMarkers`: `m_traceThreads.push_back(threadMarkers)`. -/
def TraceManager.addThreadMarkers (self : TraceManager) (threadMarkers : TraceThreadMarkers) :
    TraceManager :=
  { self with m_traceThreads := self.m_traceThreads ++ [threadMarkers] }

/-- Constructor `TraceThreadManager::TraceThreadManager()`: a fresh buffer (`make_shared`
value-initialises it), its thread id set to `threadId`, the number `std::stoull`
returns for the text of `std::this_thread::get_id()`, and registered. -/
def TraceThreadManager.ctor (s_traceManager : TraceManager) (threadId : Nat) :
    TraceManager × TraceThreadManager :=
  let m_markers : TraceThreadMarkers := ⟨[], "", 0⟩
  let m_markers := { m_markers with m_threadId := threadId }
  let m_markersPtr := s_traceManager.m_traceThreads.length
  (s_traceManager.addThreadMarkers m_markers, ⟨m_markersPtr⟩)

/-- The state of a traced process: the registry, the number of guards constructed
so far, the guards alive (each with the number of its activation and the
thread it lives on), the stream of a flush that has written but not yet cleared,
and the texts of the files written so far, oldest first. -/
structure Process where
  s_traceManager : TraceManager
  opened : Nat
  guards : List (Nat × TraceThreadManager × ScopedTrace)
  stream : Option String
  files : List String
deriving DecidableEq, Repr

/-- What the threads of the process do.  `start` is a thread's first use of its
`thread_local` manager; `flush` is a call of `saveCollectedTracing` nothing else
runs during; `flushWrite` and `flushClear` are the two halves of such a call,
each holding the registry mutex on its own: up to the return of `writeAll`, and
from the call of `clearAll` on. -/
inductive Action where
  | start (threadId : Nat)
  | enter (thread : TraceThreadManager) (file func : String) (line now : Int)
  | leave (k : Nat) (now : Int)
  | flush
  | flushWrite
  | flushClear
deriving DecidableEq, Repr

/-- One action.  `none` stands for what is no execution (a thread without
manager, a guard destroyed twice, a flush inside a flush) and for a write
through a marker pointer whose slot is gone.  The destructor of a guard that was
alive at a clear is undefined in the program also when its slot has been taken
again since; here it gets the result of `store`, which says nothing about the
program.  The schedules that `validHandles` accepts have no such step. -/
def Process.step (p : Process) : Action → Option Process
  | .start threadId =>
    some { p with s_traceManager := (TraceThreadManager.ctor p.s_traceManager threadId).1 }
  | .enter thread file func line now =>
    match p.s_traceManager.m_traceThreads[thread.m_markersPtr]? with
    | none => none
    | some buf =>
      match ScopedTrace.ctor buf file func line now with
      | none => none
      | some (buf, guard) =>
        some { p with
          s_traceManager := ⟨p.s_traceManager.m_traceThreads.set thread.m_markersPtr buf⟩
          opened := p.opened + 1
          guards := (p.opened, thread, guard) :: p.guards }
  | .leave k now =>
    match p.guards.lookup k with
    | none => none
    | some (thread, guard) =>
      match p.s_traceManager.m_traceThreads[thread.m_markersPtr]? with
      | none => none
      | some buf =>
        match guard.dtor buf now with
        | none => none
        | some buf =>
          some { p with
            s_traceManager := ⟨p.s_traceManager.m_traceThreads.set thread.m_markersPtr buf⟩
            guards := p.guards.filter (fun e => e.1 != k) }
  | .flush =>
    match p.stream with
    | some _ => none
    | none =>
      let (text, mgr) := saveCollectedTracing p.s_traceManager
      some { p with s_traceManager := mgr, files := p.files ++ [text] }
  | .flushWrite =>
    match p.stream with
    | some _ => none
    | none => some { p with stream := some (p.s_traceManager.writeAll ("" ++ "[\n")) }
  | .flushClear =>
    match p.stream with
    | none => none
    | some stream =>
      some { p with
        s_traceManager := p.s_traceManager.clearAll
        stream := none
        files := p.files ++ [stream ++ "\n]\n"] }

/-- A schedule of actions, in order. -/
def Process.run (p : Process) : List Action → Option Process
  | [] => some p
  | a :: as =>
    match p.step a with
    | none => none
    | some p' => p'.run as

/-- The process before any thread has traced anything. -/
def Process.init : Process := ⟨⟨[]⟩, 0, [], none, []⟩

/-- Does the marker pointer of a guard of `thread` designate a slot that is
present in the deque of that thread?  Necessary for the pointer to be valid, not
sufficient (see `TraceThreadMarkers.store`). -/
def Process.handleLive (p : Process) (thread : TraceThreadManager) (guard : ScopedTrace) :
    Bool :=
  match p.s_traceManager.m_traceThreads[thread.m_markersPtr]? with
  | none => false
  | some buf => decide (guard.m_marker < buf.m_markers.length)

/-! ## Thread names, and what a flush reads -/

/-- Method `TraceThreadManager::setThreadName`, as a function of the buffer that
`m_markersPtr` designates: the name is assigned to `m_threadName`. -/
def TraceThreadManager.setThreadName (buf : TraceThreadMarkers) (name : String) :
    TraceThreadMarkers :=
  { buf with m_threadName := name }

/-- Function `setTraceThreadName`, called on the thread whose manager is
`s_traceThreadManager`: the registry after the call.  `none` when the manager
designates no buffer, which no constructed manager does. -/
def setTraceThreadName (s_traceManager : TraceManager)
    (s_traceThreadManager : TraceThreadManager) (name : String) : Option TraceManager :=
  match s_traceManager.m_traceThreads[s_traceThreadManager.m_markersPtr]? with
  | none => none
  | some buf =>
    some ⟨s_traceManager.m_traceThreads.set s_traceThreadManager.m_markersPtr
      (TraceThreadManager.setThreadName buf name)⟩

/-- Calls of `setTraceThreadName` on one thread, one after the other. -/
def setTraceThreadNames (s_traceManager : TraceManager)
    (s_traceThreadManager : TraceThreadManager) : List String → Option TraceManager
  | [] => some s_traceManager
  | name :: names =>
    match setTraceThreadName s_traceManager s_traceThreadManager name with
    | none => none
    | some mgr => setTraceThreadNames mgr s_traceThreadManager names

/-- What the writer reads of the registry: of each buffer the thread id, and of
each marker the label and the two timestamps. -/
def TraceManager.written (self : TraceManager) : List (Nat × List (String × Int × Int)) :=
  self.m_traceThreads.map (fun b =>
    (b.m_threadId, b.m_markers.map (fun m => (m.m_func, m.m_begin, m.m_end))))

/-! ## Reachable states -/

/-- The managers an action constructs: one for a thread's first use, none
otherwise. -/
def Action.constructs (mgr : TraceManager) : Action → List TraceThreadManager
  | .start threadId => [(TraceThreadManager.ctor mgr threadId).2]
  | _ => []

/-- The states a traced process can reach, each with the thread managers
constructed on the way, in order of construction: from the initial state by the
actions of `Process.step` and by calls of `setTraceThreadName`. -/
inductive Process.Reachable : Process → List TraceThreadManager → Prop where
  | init : Process.Reachable Process.init []
  | step (p p' : Process) (tms : List TraceThreadManager) (a : Action) :
      Process.Reachable p tms → p.step a = some p' →
      Process.Reachable p' (tms ++ a.constructs p.s_traceManager)
  | name (p : Process) (tms : List TraceThreadManager) (tm : TraceThreadManager)
      (name : String) (mgr : TraceManager) :
      Process.Reachable p tms → setTraceThreadName p.s_traceManager tm name = some mgr →
      Process.Reachable { p with s_traceManager := mgr } tms

/-- The thread ids of the buffers an action registers: one for a thread's first
use, none otherwise. -/
def Action.registers : Action → List Nat
  | .start threadId => [threadId]
  | _ => []

/-- The registry entries by what identifies a buffer apart from its markers:
thread name and thread id, in registration order. -/
def TraceManager.entries (self : TraceManager) : List (String × Nat) :=
  self.m_traceThreads.map (fun b => (b.m_threadName, b.m_threadId))

/-! ## Thread ids from text -/

/-- White space as `isspace` has it in the C locale: space, tab, line feed,
vertical tab, form feed, carriage return. -/
def isSpace (c : Char) : Bool :=
  c.toNat == 32 || (decide (9 ≤ c.toNat) && decide (c.toNat ≤ 13))

/-- The number a run of decimal digits stands for. -/
def decimalValue (digits : List Char) : Nat :=
  digits.foldl (fun value c => 10 * value + (c.toNat - 48)) 0

/-- Library function `std::stoull(str)` with its default base ten, as the C++
standard has it through `strtoull`: leading white space is skipped, a sign is
read if there is one, then the longest run of decimal digits; whatever follows
is left unread.  No digit at that place throws `std::invalid_argument` and a
value of `2 ^ 64` or more throws `std::out_of_range`, both `none` here; after a
minus sign the value is negated in the unsigned type. -/
def stoull (str : String) : Option Nat :=
  let s := str.toList.dropWhile isSpace
  let negative := s.head? == some '-'
  let s := match s with
    | '-' :: rest => rest
    | '+' :: rest => rest
    | _ => s
  let digits := s.takeWhile Json.isDigit
  if digits.isEmpty then none
  else
    let value := decimalValue digits
    if 2 ^ 64 ≤ value then none
    else some (if negative then (2 ^ 64 - value) % 2 ^ 64 else value)

/-- Constructor `TraceThreadManager::TraceThreadManager()` on a platform where
`operator<<` gives the text `idText` for the id of the constructing thread: the
text goes through `std::stoull`, whose result is the thread id stored. -/
def TraceThreadManager.ctorOfText (s_traceManager : TraceManager) (idText : String) :
    Option (TraceManager × TraceThreadManager) :=
  match stoull idText with
  | none => none
  | some threadId => some (TraceThreadManager.ctor s_traceManager threadId)

/-! ## More about one thread recording -/

/-- Is the guard of activation `k` destroyed by one of the events? -/
def destroys (k : Nat) : List ScopeEvent → Bool
  | [] => false
  | .enter _ _ _ _ :: es => destroys k es
  | .leave j _ :: es => j == k || destroys k es

/-- What identifies the marker of an activation: the file, label and line given
to the constructor and the clock reading taken as begin stamp. -/
def TraceMarker.entry (self : TraceMarker) : String × String × Int × Int :=
  (self.m_file, self.m_func, self.m_line, self.m_begin)

/-- The markers the buffer at position `i` of the registry holds, by their
entries; none when there is no such buffer. -/
def TraceManager.entriesAt (self : TraceManager) (i : Nat) : List (String × String × Int × Int) :=
  match self.m_traceThreads[i]? with
  | none => []
  | some buf => buf.m_markers.map TraceMarker.entry

/-- The guards that the actions construct on the thread whose buffer is at
position `i`, in order, each by file, label, line and clock reading. -/
def activations (i : Nat) : List Action → List (String × String × Int × Int)
  | [] => []
  | .enter thread file func line now :: as =>
    if thread.m_markersPtr = i then (file, func, line, now) :: activations i as
    else activations i as
  | _ :: as => activations i as

/-- A schedule cut at its flushes: the runs of actions that end with a flush,
each without that flush, and the actions after the last flush.  `cur` holds the
actions since the last flush. -/
def splitRounds (cur : List Action) : List Action → List (List Action) × List Action
  | [] => ([], cur)
  | .flush :: as => (cur :: (splitRounds [] as).1, (splitRounds [] as).2)
  | .start threadId :: as => splitRounds (cur ++ [.start threadId]) as
  | .enter thread file func line now :: as =>
    splitRounds (cur ++ [.enter thread file func line now]) as
  | .leave k now :: as => splitRounds (cur ++ [.leave k now]) as
  | .flushWrite :: as => splitRounds (cur ++ [.flushWrite]) as
  | .flushClear :: as => splitRounds (cur ++ [.flushClear]) as

/-- A schedule in which every flush is a call of `saveCollectedTracing` that
nothing else runs during, every guard is constructed on a thread that has its
manager and is destroyed once, and no guard is alive when a flush is called.
`threads` counts the managers constructed, `opened` the guards constructed and
`live` lists the activations whose guard is alive. -/
def sequential (threads opened : Nat) (live : List Nat) : List Action → Bool
  | [] => true
  | .start _ :: as => sequential (threads + 1) opened live as
  | .enter thread _ _ _ _ :: as =>
    decide (thread.m_markersPtr < threads) && sequential threads (opened + 1) (opened :: live) as
  | .leave k _ :: as =>
    live.contains k && sequential threads opened (live.filter (fun j => j != k)) as
  | .flush :: as => live.isEmpty && sequential threads opened [] as
  | .flushWrite :: _ => false
  | .flushClear :: _ => false

/-- The registry as each flush of a schedule finds it, in order. -/
def Process.snapshots (p : Process) : List Action → List TraceManager
  | [] => []
  | a :: as =>
    match p.step a with
    | none => []
    | some p' =>
      (match a with
        | .flush => [p.s_traceManager]
        | _ => []) ++ p'.snapshots as

/-- Invariant of a process between the actions of a sequential schedule: no flush
is half done, `threads` buffers are registered, the guards alive are those of the
activations in `live`, and each of them points at a slot of the buffer of its
thread. -/
structure Process.Sound (p : Process) (threads : Nat) (live : List Nat) : Prop where
  no_stream : p.stream = none
  registered : p.s_traceManager.m_traceThreads.length = threads
  alive : p.guards.map Prod.fst = live
  in_range : ∀ e ∈ p.guards, ∃ buf,
    p.s_traceManager.m_traceThreads[e.2.1.m_markersPtr]? = some buf ∧
    e.2.2.m_marker < buf.m_markers.length

/-! ## Marker pointers across flushes -/

/-- A schedule read for the marker pointers it leaves valid.  A guard's pointer
is the address `createMarker` returned to its constructor; `clear` destroys every
element of the deque, so from a clear on the pointer of every guard alive is
invalid, whatever is pushed afterwards.  `valid` lists the guards alive whose
pointer no clear has invalidated, each with the number of its activation, its
thread and the marker its constructor left; `threads` counts the registered
buffers, `opened` the guards constructed, and `writing` says that a flush has
written and not yet cleared.  `none` when the schedule is no defined execution:
a guard constructed on a thread without manager, a destructor of a guard that is
not alive or whose pointer is invalid, a flush inside a flush. -/
def validHandles (threads opened : Nat) (writing : Bool)
    (valid : List (Nat × TraceThreadManager × TraceMarker)) :
    List Action → Option (List (Nat × TraceThreadManager × TraceMarker))
  | [] => some valid
  | .start _ :: as => validHandles (threads + 1) opened writing valid as
  | .enter thread file func line now :: as =>
    if thread.m_markersPtr < threads then
      validHandles threads (opened + 1) writing
        ((opened, thread, ⟨file, func, now, now, line⟩) :: valid) as
    else none
  | .leave k _ :: as =>
    if valid.any (fun e => e.1 == k) then
      validHandles threads opened writing (valid.filter (fun e => e.1 != k)) as
    else none
  | .flush :: as => if writing then none else validHandles threads opened false [] as
  | .flushWrite :: as => if writing then none else validHandles threads opened true valid as
  | .flushClear :: as => if writing then validHandles threads opened false [] as else none

/-- Invariant of a process along a schedule that `validHandles` accepts: every
guard of `valid` is alive, was constructed before, and its pointer designates a
slot of the buffer of its thread that holds the marker its constructor left; two
such guards on one thread designate different slots. -/
structure Process.Owns (p : Process) (valid : List (Nat × TraceThreadManager × TraceMarker)) :
    Prop where
  fresh : ∀ e ∈ valid, e.1 < p.opened
  own : ∀ e ∈ valid, ∃ g buf,
    p.guards.lookup e.1 = some (e.2.1, g) ∧
    p.s_traceManager.m_traceThreads[e.2.1.m_markersPtr]? = some buf ∧
    buf.m_markers[g.m_marker]? = some e.2.2
  apart : ∀ e ∈ valid, ∀ e' ∈ valid, ∀ g g',
    p.guards.lookup e.1 = some (e.2.1, g) → p.guards.lookup e'.1 = some (e'.2.1, g') →
    e.1 ≠ e'.1 → e.2.1.m_markersPtr = e'.2.1.m_markersPtr → g.m_marker ≠ g'.m_marker

/-! ## Theorems -/

set_option maxRecDepth 8000

/-! ### Joining with a separator -/

theorem sepConcat_append (sep : String) (l₁ l₂ : List String) :
    sepConcat sep (l₁ ++ l₂) = sepConcat sep l₁ ++ sepConcat sep l₂ := by
  induction l₁ with
  | nil => simp [sepConcat]
  | cons a l ih => simp [sepConcat, ih, String.append_assoc]

theorem intercalate_go_eq (sep acc : String) (l : List String) :
    String.intercalate.go acc sep l = acc ++ sepConcat sep l := by
  induction l generalizing acc with
  | nil => simp [String.intercalate.go, sepConcat]
  | cons a l ih => simp [String.intercalate.go, sepConcat, ih, String.append_assoc]

theorem intercalate_cons (sep a : String) (l : List String) :
    sep.intercalate (a :: l) = a ++ sepConcat sep l := by
  simp [String.intercalate, intercalate_go_eq]

/-! ### The writer loops -/

theorem TraceMarker.write_eq_append (m : TraceMarker) (stream : String) (t : Nat) :
    m.write stream t = stream ++ m.write "" t := by
  apply String.ext
  simp only [TraceMarker.write, String.data_append, List.append_assoc]
  rfl

theorem writeStep_foldl_false (t : Nat) (ms : List TraceMarker) (stream : String) :
    ms.foldl (TraceThreadMarkers.writeStep t) (stream, false)
      = (stream ++ sepConcat ",\n" (ms.map (fun m => m.write "" t)), false) := by
  induction ms generalizing stream with
  | nil => simp [sepConcat]
  | cons m ms ih =>
    simp only [List.foldl_cons, TraceThreadMarkers.writeStep, List.map_cons, sepConcat]
    rw [TraceMarker.write_eq_append, ih]
    simp [String.append_assoc]

theorem TraceThreadMarkers.write_cons (b : TraceThreadMarkers) (m : TraceMarker)
    (ms : List TraceMarker) (hb : b.m_markers = m :: ms) (stream : String) :
    b.write stream = stream ++ ",\n".intercalate b.texts := by
  simp only [TraceThreadMarkers.write, TraceThreadMarkers.texts, hb, List.foldl_cons,
    List.map_cons, intercalate_cons]
  simp only [TraceThreadMarkers.writeStep, if_true]
  rw [TraceMarker.write_eq_append, writeStep_foldl_false]
  simp [String.append_assoc]

theorem writeAllStep_foldl_false (bs : List TraceThreadMarkers) (stream : String) :
    bs.foldl TraceManager.writeAllStep (stream, false)
      = (stream ++ sepConcat ",\n" (bs.flatMap TraceThreadMarkers.texts), false) := by
  induction bs generalizing stream with
  | nil => simp [sepConcat]
  | cons b bs ih =>
    rw [List.foldl_cons, List.flatMap_cons, sepConcat_append]
    cases hb : b.m_markers with
    | nil =>
      simp [TraceManager.writeAllStep, hb, ih, TraceThreadMarkers.texts, sepConcat]
    | cons m ms =>
      have hw := TraceThreadMarkers.write_cons b m ms hb
      simp only [TraceManager.writeAllStep, hb, List.isEmpty_cons, Bool.false_eq_true, if_false]
      rw [hw, ih]
      have : b.texts = m.write "" b.m_threadId :: ms.map (fun m => m.write "" b.m_threadId) := by
        simp [TraceThreadMarkers.texts, hb]
      rw [this, intercalate_cons]
      simp [sepConcat, String.append_assoc]

theorem writeAllStep_foldl_true (bs : List TraceThreadMarkers) (stream : String) :
    (bs.foldl TraceManager.writeAllStep (stream, true)).1
      = stream ++ ",\n".intercalate (bs.flatMap TraceThreadMarkers.texts) := by
  induction bs generalizing stream with
  | nil => simp [String.intercalate]
  | cons b bs ih =>
    rw [List.foldl_cons, List.flatMap_cons]
    cases hb : b.m_markers with
    | nil =>
      simp [TraceManager.writeAllStep, hb, ih, TraceThreadMarkers.texts]
    | cons m ms =>
      have hw := TraceThreadMarkers.write_cons b m ms hb
      simp only [TraceManager.writeAllStep, hb, List.isEmpty_cons, Bool.false_eq_true, if_false,
        if_true]
      rw [hw, writeAllStep_foldl_false]
      have : b.texts = m.write "" b.m_threadId :: ms.map (fun m => m.write "" b.m_threadId) := by
        simp [TraceThreadMarkers.texts, hb]
      rw [this, List.cons_append, intercalate_cons, intercalate_cons, sepConcat_append]
      simp [String.append_assoc]

theorem TraceManager.writeAll_eq (mgr : TraceManager) (stream : String) :
    mgr.writeAll stream = stream ++ ",\n".intercalate mgr.texts :=
  writeAllStep_foldl_true _ _

theorem TraceManager.texts_of_no_marker (mgr : TraceManager)
    (h : ∀ b ∈ mgr.m_traceThreads, b.m_markers = []) : mgr.texts = [] := by
  simp only [TraceManager.texts, List.flatMap_eq_nil_iff]
  intro b hb
  simp [TraceThreadMarkers.texts, h b hb]

theorem TraceManager.clearAll_no_marker (mgr : TraceManager) :
    ∀ b ∈ mgr.clearAll.m_traceThreads, b.m_markers = [] := by
  intro b hb
  simp only [TraceManager.clearAll, List.mem_map] at hb
  obtain ⟨a, -, rfl⟩ := hb
  rfl

theorem saveCollectedTracing_text (mgr : TraceManager) :
    (saveCollectedTracing mgr).1 = "[\n" ++ ",\n".intercalate mgr.texts ++ "\n]\n" := by
  simp [saveCollectedTracing, TraceManager.writeAll_eq]

theorem saveCollectedTracing_registry (mgr : TraceManager) :
    (saveCollectedTracing mgr).2 = mgr.clearAll := rfl

/-! ### Claims -/

/-- C1: `TraceMarker::write` appends to the stream exactly the begin object with
the thread id and `m_begin` in decimal, a comma and a newline, and the end object
with the thread id and `m_end` in decimal, both named by the label; a marker
labelled `work` with begin 100 and end 150 gives a B object with ts 100 and an
E object with ts 150. -/
theorem C1_marker_write_text :
    (∀ (m : TraceMarker) (stream : String) (t : Nat),
      m.write stream t = stream ++
        ("\x7b\"pid\":1,\"tid\":" ++ toString t ++ ",\"ts\":" ++ toString m.m_begin
          ++ ",\"ph\":\"B\",\"cat\":\"high\",\"name\":\"" ++ m.m_func
          ++ "\",\"args\":\x7b\x7d\x7d"
          ++ ",\n"
          ++ "\x7b\"pid\":1,\"tid\":" ++ toString t ++ ",\"ts\":" ++ toString m.m_end
          ++ ",\"ph\":\"E\",\"cat\":\"high\",\"name\":\"" ++ m.m_func
          ++ "\",\"args\":\x7b\x7d\x7d"))
    ∧ (∀ (file : String) (line : Int) (t : Nat),
      (TraceMarker.mk file "work" 100 150 line).write "" t =
        "\x7b\"pid\":1,\"tid\":" ++ toString t
          ++ ",\"ts\":100,\"ph\":\"B\",\"cat\":\"high\",\"name\":\"work\",\"args\":\x7b\x7d\x7d,\n"
          ++ "\x7b\"pid\":1,\"tid\":" ++ toString t
          ++ ",\"ts\":150,\"ph\":\"E\",\"cat\":\"high\",\"name\":\"work\",\"args\":\x7b\x7d\x7d")
    ∧ (TraceMarker.mk "main.cpp" "work" 100 150 12).write "" 7 =
        "\x7b\"pid\":1,\"tid\":7,\"ts\":100,\"ph\":\"B\",\"cat\":\"high\",\"name\":\"work\",\"args\":\x7b\x7d\x7d,\n\x7b\"pid\":1,\"tid\":7,\"ts\":150,\"ph\":\"E\",\"cat\":\"high\",\"name\":\"work\",\"args\":\x7b\x7d\x7d" := by
  refine ⟨?_, ?_, ?_⟩
  · intro m stream t
    apply String.ext
    simp only [TraceMarker.write, String.data_append, List.append_assoc]
    rfl
  · intro file line t
    apply String.ext
    simp only [TraceMarker.write, String.data_append, List.append_assoc]
    rfl
  · decide

/-- C2: the text written by `saveCollectedTracing` is the opening bracket and a
newline, the serialisations of all markers (buffers in registration order,
markers in insertion order, each with the thread id of its buffer) joined by a
comma and a newline, and a newline, the closing bracket and a newline. -/
theorem C2_flush_text_is_join (mgr : TraceManager) :
    (saveCollectedTracing mgr).1 =
      "[\n" ++ ",\n".intercalate
        (mgr.m_traceThreads.flatMap (fun b =>
          b.m_markers.map (fun m => m.write "" b.m_threadId))) ++ "\n]\n" :=
  saveCollectedTracing_text mgr

/-- C3 (as amended): when no registered buffer holds a marker (no buffer at
all, or any number of empty ones), `saveCollectedTracing` writes exactly the
five characters `[`, newline, newline, `]`, newline. -/
theorem C3_flush_of_no_marker (mgr : TraceManager)
    (h : ∀ b ∈ mgr.m_traceThreads, b.m_markers = []) :
    (saveCollectedTracing mgr).1 = "[\n\n]\n" ∧ (saveCollectedTracing mgr).1.length = 5 := by
  have ht : (saveCollectedTracing mgr).1 = "[\n\n]\n" := by
    rw [saveCollectedTracing_text, TraceManager.texts_of_no_marker mgr h]
    decide
  exact ⟨ht, by rw [ht]; decide⟩

theorem C3_flush_of_no_marker_witness :
    (∀ b ∈ (TraceManager.mk [⟨[], "main", 7⟩, ⟨[], "", 9⟩]).m_traceThreads, b.m_markers = [])
    ∧ (saveCollectedTracing (TraceManager.mk [⟨[], "main", 7⟩, ⟨[], "", 9⟩])).1 = "[\n\n]\n"
    ∧ (saveCollectedTracing (TraceManager.mk [⟨[], "main", 7⟩, ⟨[], "", 9⟩])).1.length = 5 :=
  ⟨by decide, C3_flush_of_no_marker _ (by decide)⟩

/-- C3 as stated fails on the count: for the registry without buffers the text
written is `[`, newline, newline, `]`, newline, which is not six characters. -/
theorem C3_six_characters_counterexample :
    (∀ b ∈ (TraceManager.mk []).m_traceThreads, b.m_markers = [])
    ∧ (saveCollectedTracing (TraceManager.mk [])).1 = "[\n\n]\n"
    ∧ ¬ ((saveCollectedTracing (TraceManager.mk [])).1.length = 6) := by
  decide

/-- C4: after `saveCollectedTracing` every registered buffer has an empty marker
sequence, and a second `saveCollectedTracing` issued right afterwards writes
exactly `[`, newline, newline, `]`, newline. -/
theorem C4_flush_empties_buffers (mgr : TraceManager) :
    (∀ b ∈ (saveCollectedTracing mgr).2.m_traceThreads, b.m_markers = [])
    ∧ (saveCollectedTracing (saveCollectedTracing mgr).2).1 = "[\n\n]\n" := by
  have h := TraceManager.clearAll_no_marker mgr
  refine ⟨h, ?_⟩
  rw [saveCollectedTracing_text, saveCollectedTracing_registry,
    TraceManager.texts_of_no_marker _ h]
  decide

/-! ### Event objects -/

theorem TraceMarker.write_eq_pair (m : TraceMarker) (t : Nat) :
    m.write "" t = (TraceEvent.mk t m.m_begin .B m.m_func).render
      ++ (",\n" ++ (TraceEvent.mk t m.m_end .E m.m_func).render) := by
  apply String.ext
  simp only [TraceMarker.write, TraceEvent.render, Phase.letter, String.data_append,
    List.append_assoc]
  rfl

theorem TraceManager.texts_eq_owned (mgr : TraceManager) :
    mgr.texts = mgr.owned.map (fun p => p.2.write "" p.1) := by
  simp only [TraceManager.texts, TraceManager.owned, List.map_flatMap, List.map_map]
  rfl

theorem sepConcat_events (l : List (Nat × TraceMarker)) :
    sepConcat ",\n" (l.map (fun p => p.2.write "" p.1))
      = sepConcat ",\n" ((l.flatMap (fun p => p.2.events p.1)).map TraceEvent.render) := by
  induction l with
  | nil => rfl
  | cons p l ih =>
    rw [List.map_cons, List.flatMap_cons, List.map_append, sepConcat_append, ← ih]
    simp only [sepConcat, TraceMarker.events, List.map_cons, List.map_nil,
      TraceMarker.write_eq_pair, String.append_assoc, String.append_empty]

theorem intercalate_events (l : List (Nat × TraceMarker)) :
    ",\n".intercalate (l.map (fun p => p.2.write "" p.1))
      = ",\n".intercalate ((l.flatMap (fun p => p.2.events p.1)).map TraceEvent.render) := by
  cases l with
  | nil => rfl
  | cons p l =>
    rw [List.map_cons, List.flatMap_cons, List.map_append, intercalate_cons, sepConcat_events]
    simp only [TraceMarker.events, List.map_cons, List.map_nil, List.cons_append,
      List.nil_append, intercalate_cons, sepConcat, TraceMarker.write_eq_pair,
      String.append_assoc]

theorem saveCollectedTracing_events (mgr : TraceManager) :
    (saveCollectedTracing mgr).1
      = "[\n" ++ ",\n".intercalate (mgr.events.map TraceEvent.render) ++ "\n]\n" := by
  rw [saveCollectedTracing_text, TraceManager.texts_eq_owned, intercalate_events]
  rfl

theorem events_pair (l : List (Nat × TraceMarker)) :
    ∀ (i : Nat) (t : Nat) (m : TraceMarker), l[i]? = some (t, m) →
      (l.flatMap (fun p => p.2.events p.1))[2 * i]? = some ⟨t, m.m_begin, .B, m.m_func⟩ ∧
      (l.flatMap (fun p => p.2.events p.1))[2 * i + 1]? = some ⟨t, m.m_end, .E, m.m_func⟩ := by
  induction l with
  | nil => intro i t m h; simp at h
  | cons p l ih =>
    intro i t m h
    cases i with
    | zero =>
      simp only [List.getElem?_cons_zero, Option.some.injEq] at h
      subst h
      simp [TraceMarker.events]
    | succ j =>
      simp only [List.getElem?_cons_succ] at h
      have := ih j t m h
      have e1 : 2 * (j + 1) = (2 * j) + 1 + 1 := by omega
      have e2 : 2 * (j + 1) + 1 = (2 * j + 1) + 1 + 1 := by omega
      rw [e2, e1, List.flatMap_cons]
      show (_ :: _ :: (l.flatMap fun p => p.2.events p.1))[2 * j + 1 + 1]? = _ ∧
        (_ :: _ :: (l.flatMap fun p => p.2.events p.1))[2 * j + 1 + 1 + 1]? = _
      simp only [List.getElem?_cons_succ]
      exact this

namespace Json

theorem lexRun_append (a b : List Char) :
    ∀ st, lexRun st (a ++ b) = (lexRun st a).bind (fun st' => lexRun st' b) := by
  induction a with
  | nil => intro st; rfl
  | cons c a ih =>
    intro st
    simp only [List.cons_append, lexRun]
    cases lexStep st c with
    | none => rfl
    | some st' => exact ih st'

theorem lexStep_structural (c : Char) (h : isStructural c = true) :
    lexStep .outside c = some .outside := by
  have hq : (c == '"') = false := by
    cases hc : (c == '"') with
    | false => rfl
    | true =>
      have : c = '"' := by simpa using hc
      subst this
      exact absurd h (by decide)
  simp [lexStep, hq, h]

theorem lexRun_structural (s : List Char) (h : ∀ c ∈ s, isStructural c = true) :
    lexRun .outside s = some .outside := by
  induction s with
  | nil => rfl
  | cons c s ih =>
    simp only [lexRun, lexStep_structural c (h c (List.mem_cons_self _ _))]
    exact ih (fun d hd => h d (List.mem_cons_of_mem _ hd))

theorem isStructural_of_isWs (c : Char) (h : isWs c = true) : isStructural c = true := by
  simp [isStructural, h]

theorem isStructural_of_isDigit (c : Char) (h : isDigit c = true) : isStructural c = true := by
  simp [isStructural, h]

theorem lexRun_ws (w : List Char) (h : WhiteSpace w) : lexRun .outside w = some .outside :=
  lexRun_structural w (fun c hc => isStructural_of_isWs c (h c hc))

theorem lexRun_number (s : List Char) (h : Number s) : lexRun .outside s = some .outside := by
  apply lexRun_structural
  obtain ⟨minus, int, frac, exp, rfl, hminus, hint, hfrac, hexp⟩ := h
  intro c hc
  simp only [List.mem_append] at hc
  rcases hc with hc | hc | hc | hc
  · rcases hminus with rfl | rfl
    · simp at hc
    · simp only [List.mem_singleton] at hc; subst hc; decide
  · rcases hint with rfl | ⟨d, ds, rfl, hd, -, hds⟩
    · simp only [List.mem_singleton] at hc; subst hc; decide
    · simp only [List.mem_cons] at hc
      rcases hc with rfl | hc
      · exact isStructural_of_isDigit _ hd
      · exact isStructural_of_isDigit _ (hds c hc)
  · rcases hfrac with rfl | ⟨ds, rfl, -, hds⟩
    · simp at hc
    · simp only [List.mem_cons] at hc
      rcases hc with rfl | hc
      · decide
      · exact isStructural_of_isDigit _ (hds c hc)
  · rcases hexp with rfl | ⟨e, sign, ds, rfl, he, hsign, -, hds⟩
    · simp at hc
    · simp only [List.mem_cons, List.mem_append] at hc
      rcases hc with rfl | hc | hc
      · rcases he with rfl | rfl <;> decide
      · rcases hsign with rfl | rfl | rfl
        · simp at hc
        · simp only [List.mem_singleton] at hc; subst hc; decide
        · simp only [List.mem_singleton] at hc; subst hc; decide
      · exact isStructural_of_isDigit _ (hds c hc)

theorem lexStep_unescaped (c : Char) (h : isUnescaped c = true) :
    lexStep .inString c = some .inString := by
  simp only [isUnescaped, Bool.and_eq_true, decide_eq_true_eq, bne_iff_ne, ne_eq] at h
  obtain ⟨⟨h32, hq⟩, hb⟩ := h
  simp [lexStep, hq, hb, h32]

theorem isUnescaped_of_isHex (c : Char) (h : isHex c = true) : isUnescaped c = true := by
  have h32 : 32 ≤ c.toNat := by
    simp only [isHex, isDigit, Bool.or_eq_true, Bool.and_eq_true, decide_eq_true_eq] at h
    omega
  have hq : c ≠ '"' := by
    intro hc; rw [hc] at h; revert h; decide
  have hb : c ≠ '\\' := by
    intro hc; rw [hc] at h; revert h; decide
  simp [isUnescaped, h32, hq, hb]

theorem lexRun_chars (s : List Char) (h : Chars s) : lexRun .inString s = some .inString := by
  induction h with
  | nil => rfl
  | plain c s hc _ ih => simp only [lexRun, lexStep_unescaped c hc, ih]
  | escape c s hc _ ih =>
    have h1 : lexStep .inString '\\' = some .escaped := by decide
    have h2 : lexStep .escaped c = some .inString := by simp [lexStep, hc]
    simp only [lexRun, h1, h2, ih]
  | unicode a b c d s ha hb hc hd _ ih =>
    have h1 : lexStep .inString '\\' = some .escaped := by decide
    have h2 : lexStep .escaped 'u' = some .inString := by decide
    simp only [lexRun, h1, h2, lexStep_unescaped _ (isUnescaped_of_isHex _ ha),
      lexStep_unescaped _ (isUnescaped_of_isHex _ hb),
      lexStep_unescaped _ (isUnescaped_of_isHex _ hc),
      lexStep_unescaped _ (isUnescaped_of_isHex _ hd), ih]

theorem lexRun_quoted (k : List Char) (h : Chars k) (rest : List Char) :
    lexRun .outside ('"' :: (k ++ '"' :: rest)) = lexRun .outside rest := by
  have h1 : lexStep .outside '"' = some .inString := by decide
  have h2 : lexStep .inString '"' = some .outside := by decide
  simp only [lexRun, h1, lexRun_append, lexRun_chars k h, Option.bind, h2]

theorem lexRun_cons_structural (c : Char) (h : isStructural c = true) (rest : List Char) :
    lexRun .outside (c :: rest) = lexRun .outside rest := by
  simp only [lexRun, lexStep_structural c h]

theorem lexRun_append_outside (a rest : List Char) (h : lexRun .outside a = some .outside) :
    lexRun .outside (a ++ rest) = lexRun .outside rest := by
  simp only [lexRun_append, h, Option.bind]

theorem isDigit_digitChar (k : Nat) (h : k < 10) :
    isDigit (Nat.digitChar k) = true ∧ (k ≠ 0 → Nat.digitChar k ≠ '0') := by
  interval_cases k <;> decide

theorem toDigitsCore_pos (fuel : Nat) :
    ∀ (n : Nat) (ds : List Char), 0 < n → n < fuel →
      ∃ d ds', Nat.toDigitsCore 10 fuel n ds = d :: (ds' ++ ds) ∧ isDigit d = true ∧ d ≠ '0' ∧
        ∀ c ∈ ds', isDigit c = true := by
  induction fuel with
  | zero => intro n ds _ h; omega
  | succ fuel ih =>
    intro n ds hn hlt
    have hd := isDigit_digitChar (n % 10) (Nat.mod_lt _ (by decide))
    by_cases h0 : n / 10 = 0
    · have hsmall : n % 10 ≠ 0 := by omega
      refine ⟨Nat.digitChar (n % 10), [], ?_, hd.1, hd.2 hsmall, by simp⟩
      simp [Nat.toDigitsCore, h0]
    · obtain ⟨d, ds', heq, hdd, hd0, hall⟩ :=
        ih (n / 10) (Nat.digitChar (n % 10) :: ds) (by omega) (by omega)
      refine ⟨d, ds' ++ [Nat.digitChar (n % 10)], ?_, hdd, hd0, ?_⟩
      · simp [Nat.toDigitsCore, h0, heq]
      · intro c hc
        simp only [List.mem_append, List.mem_singleton] at hc
        rcases hc with hc | rfl
        · exact hall c hc
        · exact hd.1

theorem intPart_toString (n : Nat) : IntPart (toString n).toList := by
  show IntPart (Nat.toDigits 10 n)
  by_cases hn : n = 0
  · subst hn; exact Or.inl rfl
  · obtain ⟨d, ds', heq, hd, hd0, hall⟩ :=
      toDigitsCore_pos (n + 1) n [] (by omega) (by omega)
    refine Or.inr ⟨d, ds', ?_, hd, hd0, hall⟩
    simpa [Nat.toDigits] using heq

theorem number_of_nat (n : Nat) : Number (toString n).toList :=
  ⟨[], _, [], [], by simp, Or.inl rfl, intPart_toString n, Or.inl rfl, Or.inl rfl⟩

theorem number_of_int (i : Int) : Number (toString i).toList := by
  cases i with
  | ofNat n => exact number_of_nat n
  | negSucc n =>
    refine ⟨['-'], _, [], [], ?_, Or.inr rfl, intPart_toString (n + 1), Or.inl rfl, Or.inl rfl⟩
    show ("-" ++ toString (n + 1)).toList = _
    simp [String.toList]

/-- Every text that parses is accepted by the lexical scan, which ends outside of
a string. -/
theorem lexRun_parses (s : List Char) (n : Node) (h : Parses s n) :
    lexRun .outside s = some .outside := by
  induction h with
  | null => decide
  | true => decide
  | false => decide
  | number s hs => exact lexRun_number s hs
  | string s hs =>
    rw [lexRun_quoted s hs]; rfl
  | arrayEmpty w hw =>
    rw [lexRun_cons_structural _ (by decide), lexRun_append_outside _ _ (lexRun_ws w hw)]
    decide
  | array s vs _ ih =>
    rw [lexRun_cons_structural _ (by decide), lexRun_append_outside _ _ ih]
    decide
  | objectEmpty w hw =>
    rw [lexRun_cons_structural _ (by decide), lexRun_append_outside _ _ (lexRun_ws w hw)]
    decide
  | object s ms _ ih =>
    rw [lexRun_cons_structural _ (by decide), lexRun_append_outside _ _ ih]
    decide
  | element w₁ s w₂ v h₁ _ h₂ ih =>
    rw [lexRun_append_outside _ _ (lexRun_ws w₁ h₁), lexRun_append_outside _ _ ih]
    exact lexRun_ws w₂ h₂
  | elements w₁ s w₂ rest v vs h₁ _ h₂ _ ih ihrest =>
    rw [lexRun_append_outside _ _ (lexRun_ws w₁ h₁), lexRun_append_outside _ _ ih,
      lexRun_append_outside _ _ (lexRun_ws w₂ h₂), lexRun_cons_structural _ (by decide)]
    exact ihrest
  | member w₁ k w₂ w₃ s w₄ v h₁ hk h₂ h₃ _ h₄ ih =>
    rw [lexRun_append_outside _ _ (lexRun_ws w₁ h₁), lexRun_quoted k hk,
      lexRun_append_outside _ _ (lexRun_ws w₂ h₂), lexRun_cons_structural _ (by decide),
      lexRun_append_outside _ _ (lexRun_ws w₃ h₃), lexRun_append_outside _ _ ih]
    exact lexRun_ws w₄ h₄
  | members w₁ k w₂ w₃ s w₄ rest v ms h₁ hk h₂ h₃ _ h₄ _ ih ihrest =>
    rw [lexRun_append_outside _ _ (lexRun_ws w₁ h₁), lexRun_quoted k hk,
      lexRun_append_outside _ _ (lexRun_ws w₂ h₂), lexRun_cons_structural _ (by decide),
      lexRun_append_outside _ _ (lexRun_ws w₃ h₃), lexRun_append_outside _ _ ih,
      lexRun_append_outside _ _ (lexRun_ws w₄ h₄), lexRun_cons_structural _ (by decide)]
    exact ihrest

theorem lexRun_text (s : List Char) (v : Value) (h : Text s v) :
    lexRun .outside s = some .outside := by
  obtain ⟨w₁, body, w₂, h₁, hb, h₂, rfl⟩ := h
  rw [lexRun_append_outside _ _ (lexRun_ws w₁ h₁),
    lexRun_append_outside _ _ (lexRun_parses _ _ hb)]
  exact lexRun_ws w₂ h₂

theorem whiteSpace_nil : WhiteSpace [] := by intro c hc; simp at hc

theorem Chars.of_unescaped (s : List Char) (h : ∀ c ∈ s, isUnescaped c = true) : Chars s := by
  induction s with
  | nil => exact Chars.nil
  | cons c s ih =>
    exact Chars.plain c s (h c (List.mem_cons_self _ _))
      (ih (fun d hd => h d (List.mem_cons_of_mem _ hd)))

theorem Parses.member_tight (k s : List Char) (v : Value) (hk : Chars k)
    (hs : Parses s (.value v)) :
    Parses (memberText k s) (.members [(k, v)]) := by
  have := Parses.member [] k [] [] s [] v whiteSpace_nil hk whiteSpace_nil whiteSpace_nil hs
    whiteSpace_nil
  simpa [memberText] using this

theorem Parses.members_tight (k s rest : List Char) (v : Value)
    (ms : List (List Char × Value)) (hk : Chars k) (hs : Parses s (.value v))
    (hrest : Parses rest (.members ms)) :
    Parses (membersText k s rest) (.members ((k, v) :: ms)) := by
  have := Parses.members [] k [] [] s [] rest v ms whiteSpace_nil hk whiteSpace_nil
    whiteSpace_nil hs whiteSpace_nil hrest
  simpa [membersText] using this

end Json

theorem TraceEvent.render_shape (e : TraceEvent) :
    e.render.toList =
      '\x7b' :: (
        Json.membersText "pid".toList "1".toList (
        Json.membersText "tid".toList (toString e.tid).toList (
        Json.membersText "ts".toList (toString e.ts).toList (
        Json.membersText "ph".toList (Json.quoted e.ph.letter.toList) (
        Json.membersText "cat".toList (Json.quoted "high".toList) (
        Json.membersText "name".toList (Json.quoted e.name.toList) (
        Json.memberText "args".toList ('\x7b' :: ([] ++ ['\x7d'])))))))) ++ ['\x7d']) := by
  simp only [TraceEvent.render, String.toList, String.data_append, List.append_assoc,
    List.cons_append, List.nil_append, Json.membersText, Json.memberText, Json.quoted]

theorem TraceEvent.parses (e : TraceEvent) (h : Json.Chars e.name.toList) :
    Json.Parses e.render.toList (.value e.toJson) := by
  rw [TraceEvent.render_shape]
  have key : ∀ s : List Char, (∀ c ∈ s, Json.isUnescaped c = true) → Json.Chars s :=
    Json.Chars.of_unescaped
  have hph : Json.Chars e.ph.letter.toList := by
    cases e.ph <;> exact key _ (by decide)
  refine Json.Parses.object _ _ ?_
  refine Json.Parses.members_tight _ _ _ _ _ (key _ (by decide))
    (Json.Parses.number _ (Json.number_of_nat 1)) ?_
  refine Json.Parses.members_tight _ _ _ _ _ (key _ (by decide))
    (Json.Parses.number _ (Json.number_of_nat e.tid)) ?_
  refine Json.Parses.members_tight _ _ _ _ _ (key _ (by decide))
    (Json.Parses.number _ (Json.number_of_int e.ts)) ?_
  refine Json.Parses.members_tight _ _ _ _ _ (key _ (by decide))
    (Json.Parses.string _ hph) ?_
  refine Json.Parses.members_tight _ _ _ _ _ (key _ (by decide))
    (Json.Parses.string _ (key _ (by decide))) ?_
  refine Json.Parses.members_tight _ _ _ _ _ (key _ (by decide))
    (Json.Parses.string _ h) ?_
  exact Json.Parses.member_tight _ _ _ (key _ (by decide))
    (Json.Parses.objectEmpty [] Json.whiteSpace_nil)

theorem elementsText_parses (es : List TraceEvent) (hne : es ≠ [])
    (h : ∀ e ∈ es, Json.Chars e.name.toList) :
    Json.Parses (elementsText es) (.elements (es.map TraceEvent.toJson)) := by
  induction es with
  | nil => exact absurd rfl hne
  | cons e es ih =>
    have he := TraceEvent.parses e (h e (List.mem_cons_self _ _))
    have hnl : Json.WhiteSpace ['\n'] := by
      intro c hc; simp only [List.mem_singleton] at hc; subst hc; decide
    cases es with
    | nil =>
      exact Json.Parses.element ['\n'] _ ['\n'] _ hnl he hnl
    | cons e' es =>
      have hrest := ih (by simp) (fun x hx => h x (List.mem_cons_of_mem _ hx))
      have := Json.Parses.elements ['\n'] _ [] _ _ _ hnl he Json.whiteSpace_nil hrest
      simpa [elementsText] using this

theorem elementsText_eq (e : TraceEvent) (es : List TraceEvent) :
    '\n' :: (e.render.toList ++ ((sepConcat ",\n" (es.map TraceEvent.render)).toList ++ ['\n']))
      = elementsText (e :: es) := by
  induction es generalizing e with
  | nil => simp [sepConcat, elementsText]
  | cons e' es ih =>
    rw [elementsText, ← ih e']
    simp [sepConcat, String.toList, String.data_append]

theorem flushText_shape (e : TraceEvent) (es : List TraceEvent) :
    ("[\n" ++ ",\n".intercalate ((e :: es).map TraceEvent.render) ++ "\n]\n").toList
      = [] ++ (('[' :: (elementsText (e :: es) ++ [']'])) ++ ['\n']) := by
  rw [← elementsText_eq, List.map_cons, intercalate_cons]
  simp [String.toList, String.data_append]

/-- C9 (as amended): when every label is, as it stands, the body of a JSON
string literal (no quotation mark and no control character in it, a reverse
solidus only as the start of an escape), the text written by
`saveCollectedTracing` is a well-formed JSON text: an array whose elements are
the event objects of the registry, two per marker. -/
theorem C9_flush_text_is_json (mgr : TraceManager)
    (h : ∀ b ∈ mgr.m_traceThreads, ∀ m ∈ b.m_markers, Json.Chars m.m_func.toList) :
    Json.Text (saveCollectedTracing mgr).1.toList
      (.array (mgr.events.map TraceEvent.toJson)) := by
  have hnl : Json.WhiteSpace ['\n'] := by
    intro c hc; simp only [List.mem_singleton] at hc; subst hc; decide
  have hnames : ∀ e ∈ mgr.events, Json.Chars e.name.toList := by
    intro e he
    simp only [TraceManager.events, TraceManager.owned, List.mem_flatMap, List.mem_map] at he
    obtain ⟨p, ⟨b, hb, m, hm, rfl⟩, he⟩ := he
    simp only [TraceMarker.events, List.mem_cons, List.mem_singleton, List.not_mem_nil,
      or_false] at he
    rcases he with rfl | rfl <;> exact h b hb m hm
  rw [saveCollectedTracing_events]
  cases hev : mgr.events with
  | nil =>
    refine ⟨[], ['[', '\n', '\n', ']'], ['\n'], Json.whiteSpace_nil, ?_, hnl, by decide⟩
    refine Json.Parses.arrayEmpty ['\n', '\n'] ?_
    intro c hc
    simp only [List.mem_cons, List.mem_singleton, List.not_mem_nil, or_false] at hc
    rcases hc with rfl | rfl <;> decide
  | cons e es =>
    refine ⟨[], _, ['\n'], Json.whiteSpace_nil, ?_, hnl, flushText_shape e es⟩
    refine Json.Parses.array _ _ (elementsText_parses _ (by simp) ?_)
    rw [← hev]; exact hnames

/-- C9 as stated fails: labels are written as they are, without escaping, so a
label with a quotation mark in it gives a text that is no JSON text at all. -/
theorem C9_quote_in_label_counterexample :
    ¬ ∃ v, Json.Text (saveCollectedTracing ⟨[⟨[⟨"a.cpp", "load \"cfg\"", 100, 150, 3⟩], "", 7⟩]⟩).1.toList v := by
  rintro ⟨v, hv⟩
  have h := Json.lexRun_text _ _ hv
  revert h
  decide

theorem C9_flush_text_is_json_witness :
    (∀ b ∈ (TraceManager.mk [⟨[⟨"a.cpp", "work", 100, 150, 3⟩], "main", 7⟩]).m_traceThreads,
      ∀ m ∈ b.m_markers, Json.Chars m.m_func.toList)
    ∧ Json.Text
        (saveCollectedTracing (TraceManager.mk [⟨[⟨"a.cpp", "work", 100, 150, 3⟩], "main", 7⟩])).1.toList
        (.array [(TraceEvent.mk 7 100 .B "work").toJson, (TraceEvent.mk 7 150 .E "work").toJson]) := by
  have hyp : ∀ b ∈ (TraceManager.mk [⟨[⟨"a.cpp", "work", 100, 150, 3⟩], "main", 7⟩]).m_traceThreads,
      ∀ m ∈ b.m_markers, Json.Chars m.m_func.toList := by
    intro b hb m hm
    simp only [List.mem_singleton] at hb
    subst hb
    simp only [List.mem_singleton] at hm
    subst hm
    exact Json.Chars.of_unescaped _ (by decide)
  exact ⟨hyp, C9_flush_text_is_json _ hyp⟩

/-! ### Recording on one thread -/

theorem TraceThreadMarkers.store_last (ms : List TraceMarker) (n : String) (t : Nat)
    (m : TraceMarker) (f : TraceMarker → TraceMarker) :
    TraceThreadMarkers.store ⟨ms ++ [m], n, t⟩ ms.length f = some ⟨ms ++ [f m], n, t⟩ := by
  simp [TraceThreadMarkers.store]

theorem ScopedTrace.ctor_eq (buf : TraceThreadMarkers) (file func : String) (line now : Int) :
    ScopedTrace.ctor buf file func line now =
      some ({ buf with m_markers := buf.m_markers ++ [⟨file, func, now, now, line⟩] },
            ⟨buf.m_markers.length⟩) := by
  obtain ⟨ms, n, t⟩ := buf
  simp only [ScopedTrace.ctor, TraceThreadManager.createMarker, List.length_append,
    List.length_singleton, Nat.add_sub_cancel, bind, Option.bind]
  simp [TraceThreadMarkers.store_last, pure]

theorem lookup_map_guard (live : List Nat) (k : Nat) (h : k ∈ live) :
    (live.map (fun k => (k, ScopedTrace.mk k))).lookup k = some ⟨k⟩ := by
  induction live with
  | nil => simp at h
  | cons a l ih =>
    by_cases hk : k = a
    · subst hk; simp [List.lookup]
    · have : k ∈ l := by simpa [hk] using h
      simp only [List.map_cons, List.lookup]
      have : (k == a) = false := by simpa using hk
      simp [this, ih ‹k ∈ l›]

theorem filter_map_guard (live : List Nat) (k : Nat) :
    (live.map (fun k => (k, ScopedTrace.mk k))).filter (fun e => e.1 != k)
      = (live.filter (fun j => j != k)).map (fun k => (k, ScopedTrace.mk k)) := by
  induction live with
  | nil => rfl
  | cons a l ih =>
    by_cases hk : a = k <;> simp [List.filter_cons, hk, ih]

theorem ThreadRun.step_enter (s : ThreadRun) (file func : String) (line now : Int) :
    s.step (.enter file func line now) = some (s.entered file func line now) := by
  simp only [ThreadRun.step, ScopedTrace.ctor_eq, ThreadRun.entered]

theorem ThreadRun.Inv.entered_inv {s : ThreadRun} {live : List Nat} (h : s.Inv live)
    (file func : String) (line now : Int) :
    (s.entered file func line now).Inv (s.opened :: live) := by
  constructor
  · simp [ThreadRun.entered, h.opened_eq]
  · simp [ThreadRun.entered, h.guards_eq, h.opened_eq]
  · intro k hk
    simp only [List.mem_cons] at hk
    rcases hk with rfl | hk
    · simp [ThreadRun.entered]
    · have := h.live_lt k hk; simp [ThreadRun.entered]; omega

theorem ThreadRun.Timed.entered_timed {s : ThreadRun} {T : Int} (h : s.Timed T)
    (file func : String) (line now : Int) (hT : T ≤ now) :
    (s.entered file func line now).Timed now := by
  intro m hm
  simp only [ThreadRun.entered, List.mem_append, List.mem_singleton] at hm
  rcases hm with hm | rfl
  · have := h m hm
    exact ⟨this.1, le_trans this.2 hT⟩
  · simp

theorem ThreadRun.Inv.step_leave {s : ThreadRun} {live : List Nat} (h : s.Inv live)
    (k : Nat) (now : Int) (hk : k ∈ live) :
    ∃ m, s.buf.m_markers[k]? = some m ∧ s.step (.leave k now) = some (s.left k m now) := by
  have hlt : k < s.buf.m_markers.length := h.opened_eq ▸ h.live_lt k hk
  have hget : s.buf.m_markers[k]? = some s.buf.m_markers[k] := List.getElem?_eq_getElem hlt
  refine ⟨s.buf.m_markers[k], hget, ?_⟩
  simp only [ThreadRun.step, h.guards_eq, lookup_map_guard live k hk, ScopedTrace.dtor,
      TraceThreadMarkers.store, hget, ThreadRun.left]

theorem ThreadRun.Inv.left_inv {s : ThreadRun} {live : List Nat} (h : s.Inv live)
    (k : Nat) (m : TraceMarker) (now : Int) :
    (s.left k m now).Inv (live.filter (fun j => j != k)) := by
  constructor
  · simp [ThreadRun.left, h.opened_eq]
  · simp [ThreadRun.left, h.guards_eq, filter_map_guard]
  · intro j hj
    exact h.live_lt j (List.mem_of_mem_filter hj)

theorem ThreadRun.Timed.left_timed {s : ThreadRun} {T : Int} (h : s.Timed T)
    (k : Nat) (m : TraceMarker) (now : Int) (hT : T ≤ now)
    (hm : s.buf.m_markers[k]? = some m) :
    (s.left k m now).Timed now := by
  intro m' hm'
  simp only [ThreadRun.left] at hm'
  rcases List.mem_or_eq_of_mem_set hm' with hm' | rfl
  · have := h m' hm'
    exact ⟨this.1, le_trans this.2 hT⟩
  · have := h _ (List.getElem?_mem hm)
    simp only [le_refl, and_true]
    omega

theorem map_func_set (ms : List TraceMarker) (k : Nat) (m : TraceMarker) (now : Int)
    (hm : ms[k]? = some m) :
    (ms.set k { m with m_end := now }).map TraceMarker.m_func = ms.map TraceMarker.m_func := by
  apply List.ext_getElem?
  intro i
  by_cases hi : i = k
  · subst hi
    have hlt : i < ms.length := (List.getElem?_eq_some.mp hm).1
    have hget : ms[i] = m := (List.getElem?_eq_some.mp hm).2
    simp [List.getElem?_set, hlt, hget]
  · simp [List.getElem?_set, Ne.symm hi]

/-- A well-scoped run produces a state; it appends one marker per activation,
in activation order, and keeps thread name and id. -/
theorem ThreadRun.run_scoped (evs : List ScopeEvent) :
    ∀ (s : ThreadRun) (live : List Nat), s.Inv live →
      wellScoped s.opened live evs = true →
      ∃ s', s.run evs = some s' ∧
        s'.Inv (liveAfter s.opened live evs).2 ∧
        s'.opened = (liveAfter s.opened live evs).1 ∧
        s'.buf.m_markers.map TraceMarker.m_func
          = s.buf.m_markers.map TraceMarker.m_func ++ enterLabels evs ∧
        s'.buf.m_threadName = s.buf.m_threadName ∧ s'.buf.m_threadId = s.buf.m_threadId := by
  induction evs with
  | nil =>
    intro s live h _
    exact ⟨s, rfl, h, rfl, by simp [enterLabels], rfl, rfl⟩
  | cons e es ih =>
    intro s live h hs
    cases e with
    | enter file func line now =>
      simp only [wellScoped] at hs
      have h' := h.entered_inv file func line now
      obtain ⟨s', hrun, hinv, ho, hl, hn, hi⟩ := ih _ _ h' hs
      refine ⟨s', ?_, hinv, ho, ?_, hn, hi⟩
      · simp only [ThreadRun.run, ThreadRun.step_enter, hrun]
      · rw [hl]; simp [ThreadRun.entered, enterLabels]
    | leave k now =>
      simp only [wellScoped, Bool.and_eq_true] at hs
      obtain ⟨m, hm, hstep⟩ := h.step_leave k now (by simpa using hs.1)
      have h' := h.left_inv k m now
      obtain ⟨s', hrun, hinv, ho, hl, hn, hi⟩ := ih _ _ h' hs.2
      refine ⟨s', ?_, hinv, ho, ?_, hn, hi⟩
      · simp only [ThreadRun.run, hstep, hrun]
      · rw [hl]; simp [ThreadRun.left, enterLabels, map_func_set _ _ _ _ hm]

/-- With non-decreasing clock readings every marker of a well-scoped run ends
no earlier than it begins. -/
theorem ThreadRun.run_timed (evs : List ScopeEvent) :
    ∀ (s s' : ThreadRun) (live : List Nat) (T : Int), s.Inv live → s.Timed T →
      wellScoped s.opened live evs = true →
      List.Chain (· ≤ ·) T (evs.map ScopeEvent.now) →
      s.run evs = some s' → ∀ m ∈ s'.buf.m_markers, m.m_begin ≤ m.m_end := by
  induction evs with
  | nil =>
    intro s s' live T _ ht _ _ hrun m hm
    simp only [ThreadRun.run, Option.some.injEq] at hrun
    subst hrun
    exact (ht m hm).1
  | cons e es ih =>
    intro s s' live T h ht hs hc hrun
    simp only [List.map_cons, List.chain_cons] at hc
    cases e with
    | enter file func line now =>
      simp only [wellScoped] at hs
      simp only [ThreadRun.run, ThreadRun.step_enter] at hrun
      exact ih _ _ _ _ (h.entered_inv file func line now) (ht.entered_timed file func line now hc.1) hs hc.2 hrun
    | leave k now =>
      simp only [wellScoped, Bool.and_eq_true] at hs
      obtain ⟨m, hm, hstep⟩ := h.step_leave k now (by simpa using hs.1)
      simp only [ThreadRun.run, hstep] at hrun
      exact ih _ _ _ _ (h.left_inv k m now) (ht.left_timed k m now hc.1 hm) hs.2 hc.2 hrun

theorem nonDecreasing_chain (l : List Int) (h : nonDecreasing l = true) :
    List.Chain' (· ≤ ·) l := by
  induction l with
  | nil => exact List.chain'_nil
  | cons a l ih =>
    cases l with
    | nil => exact List.chain'_singleton a
    | cons b l =>
      simp only [nonDecreasing, Bool.and_eq_true, decide_eq_true_eq] at h
      exact List.chain'_cons.mpr ⟨h.1, ih h.2⟩

theorem liveAfter_fst (evs : List ScopeEvent) :
    ∀ (n : Nat) (live : List Nat), (liveAfter n live evs).1 = n + (enterLabels evs).length := by
  induction evs with
  | nil => intro n live; rfl
  | cons e es ih =>
    intro n live
    cases e with
    | enter file func line now => simp only [liveAfter, enterLabels, ih, List.length_cons]; omega
    | leave k now => simp only [liveAfter, enterLabels, ih]

/-- C6: on one thread, starting from an empty buffer, every well-scoped sequence
of guard constructions and destructions (any nesting, no flush) with
non-decreasing clock readings runs to a state whose buffer holds exactly one
marker per activation, the i-th marker carrying the label of the i-th activated
guard, and every marker has `m_end` at least `m_begin`; this holds at every
point of the run, in particular once all guards are destroyed. -/
theorem C6_markers_in_activation_order (name : String) (threadId : Nat)
    (evs : List ScopeEvent)
    (hscoped : wellScoped 0 [] evs = true)
    (hclock : nonDecreasing (evs.map ScopeEvent.now) = true) :
    ∃ s, (ThreadRun.mk ⟨[], name, threadId⟩ 0 []).run evs = some s ∧
      s.buf.m_markers.length = (enterLabels evs).length ∧
      s.buf.m_markers.map TraceMarker.m_func = enterLabels evs ∧
      ∀ m ∈ s.buf.m_markers, m.m_begin ≤ m.m_end := by
  have hinv : (ThreadRun.mk ⟨[], name, threadId⟩ 0 []).Inv [] :=
    ⟨rfl, rfl, by simp⟩
  obtain ⟨s, hrun, -, -, hl, -, -⟩ := ThreadRun.run_scoped evs _ _ hinv hscoped
  simp only [List.map_nil, List.nil_append] at hl
  refine ⟨s, hrun, ?_, hl, ?_⟩
  · rw [← hl, List.length_map]
  · cases evs with
    | nil =>
      simp only [ThreadRun.run, Option.some.injEq] at hrun
      subst hrun; simp
    | cons e es =>
      refine ThreadRun.run_timed (e :: es) _ s [] e.now hinv (by simp [ThreadRun.Timed])
        hscoped ?_ hrun
      simp only [List.map_cons, List.chain_cons, le_refl, true_and]
      exact nonDecreasing_chain _ hclock

theorem ThreadRun.run_append (xs ys : List ScopeEvent) :
    ∀ s : ThreadRun, s.run (xs ++ ys) = (s.run xs).bind (fun s' => s'.run ys) := by
  induction xs with
  | nil => intro s; rfl
  | cons e es ih =>
    intro s
    simp only [List.cons_append, ThreadRun.run]
    cases s.step e with
    | none => rfl
    | some s' => exact ih s'

theorem wellScoped_append (xs ys : List ScopeEvent) :
    ∀ (n : Nat) (live : List Nat), wellScoped n live (xs ++ ys) =
      (wellScoped n live xs && wellScoped (liveAfter n live xs).1 (liveAfter n live xs).2 ys) := by
  induction xs with
  | nil => intro n live; simp [wellScoped, liveAfter]
  | cons e es ih =>
    intro n live
    cases e with
    | enter file func line now =>
      show wellScoped (n + 1) (n :: live) (es ++ ys) = _
      rw [ih]; rfl
    | leave k now =>
      show (live.contains k && wellScoped n (live.filter (fun j => j != k)) (es ++ ys)) = _
      rw [ih, ← Bool.and_assoc]; rfl

theorem TraceMarker.sameEntry_refl (m : TraceMarker) : m.sameEntry m := ⟨rfl, rfl, rfl, rfl⟩

theorem TraceMarker.sameEntry_trans {a b c : TraceMarker} (h₁ : a.sameEntry b)
    (h₂ : b.sameEntry c) : a.sameEntry c :=
  ⟨h₁.1.trans h₂.1, h₁.2.1.trans h₂.2.1, h₁.2.2.1.trans h₂.2.2.1, h₁.2.2.2.trans h₂.2.2.2⟩

/-- Frame of a well-scoped run: a marker already recorded keeps its slot and its
entry data, and is not touched at all when its guard is no longer alive; such a
guard does not come back to life. -/
theorem ThreadRun.run_frame (evs : List ScopeEvent) :
    ∀ (s s' : ThreadRun) (live : List Nat), s.Inv live →
      wellScoped s.opened live evs = true → s.run evs = some s' →
      ∀ (j : Nat) (m : TraceMarker), s.buf.m_markers[j]? = some m →
        ∃ m', s'.buf.m_markers[j]? = some m' ∧ m'.sameEntry m ∧
          (j ∉ live → m' = m ∧ j ∉ (liveAfter s.opened live evs).2) := by
  induction evs with
  | nil =>
    intro s s' live _ _ hrun j m hj
    simp only [ThreadRun.run, Option.some.injEq] at hrun
    subst hrun
    exact ⟨m, hj, m.sameEntry_refl, fun h => ⟨rfl, h⟩⟩
  | cons e es ih =>
    intro s s' live h hs hrun j m hj
    have hjlt : j < s.buf.m_markers.length := (List.getElem?_eq_some.mp hj).1
    cases e with
    | enter file func line now =>
      simp only [wellScoped] at hs
      simp only [ThreadRun.run, ThreadRun.step_enter] at hrun
      have hj' : (s.entered file func line now).buf.m_markers[j]? = some m := by
        simp only [ThreadRun.entered]
        rw [List.getElem?_append_left hjlt]; exact hj
      obtain ⟨m', hm', hsame, hdead⟩ := ih _ _ _ (h.entered_inv file func line now) hs hrun j m hj'
      refine ⟨m', hm', hsame, fun hnl => ?_⟩
      have hne : j ≠ s.opened := by rw [h.opened_eq]; omega
      exact hdead (by simp [hnl, hne])
    | leave k now =>
      simp only [wellScoped, Bool.and_eq_true] at hs
      obtain ⟨mk, hmk, hstep⟩ := h.step_leave k now (by simpa using hs.1)
      simp only [ThreadRun.run, hstep] at hrun
      by_cases hjk : j = k
      · subst hjk
        have hmm : mk = m := by rw [hj] at hmk; exact (Option.some.inj hmk).symm
        subst hmm
        have hj' : (s.left j mk now).buf.m_markers[j]? = some { mk with m_end := now } := by
          simp [ThreadRun.left, List.getElem?_set, hjlt]
        obtain ⟨m', hm', hsame, -⟩ := ih _ _ _ (h.left_inv j mk now) hs.2 hrun j _ hj'
        refine ⟨m', hm', TraceMarker.sameEntry_trans hsame ⟨rfl, rfl, rfl, rfl⟩, fun hnl => ?_⟩
        exact absurd (by simpa using hs.1) hnl
      · have hj' : (s.left k mk now).buf.m_markers[j]? = some m := by
          simp [ThreadRun.left, List.getElem?_set, Ne.symm hjk, hj]
        obtain ⟨m', hm', hsame, hdead⟩ := ih _ _ _ (h.left_inv k mk now) hs.2 hrun j m hj'
        refine ⟨m', hm', hsame, fun hnl => ?_⟩
        exact hdead (fun hmem => hnl (List.mem_of_mem_filter hmem))

/-- Life of one guard inside a well-scoped run: activated first, destroyed after
the events `X`, followed by the events `Y`.  Its marker ends up holding the
constructor arguments, the clock reading of the constructor as `m_begin` and
the clock reading of the destructor as `m_end`. -/
theorem ThreadRun.run_guard (s : ThreadRun) (live : List Nat) (h : s.Inv live)
    (file func : String) (line now stop : Int) (X Y : List ScopeEvent)
    (hs : wellScoped s.opened live
      (.enter file func line now :: (X ++ .leave s.opened stop :: Y)) = true) :
    ∃ s', s.run (.enter file func line now :: (X ++ .leave s.opened stop :: Y)) = some s' ∧
      s'.buf.m_markers[s.opened]? = some ⟨file, func, now, stop, line⟩ := by
  simp only [wellScoped, wellScoped_append, Bool.and_eq_true] at hs
  obtain ⟨hsX, hk, hsY⟩ := hs
  have h1 := h.entered_inv file func line now
  have hslot : (s.entered file func line now).buf.m_markers[s.opened]?
      = some ⟨file, func, now, now, line⟩ := by
    simp [ThreadRun.entered, h.opened_eq]
  have hop1 : (s.entered file func line now).opened = s.opened + 1 := rfl
  rw [← hop1] at hsX hk hsY
  obtain ⟨s2, hrun2, h2, hop2, -, -, -⟩ := ThreadRun.run_scoped X _ _ h1 hsX
  obtain ⟨m2, hm2, hsame2, -⟩ := ThreadRun.run_frame X _ _ _ h1 hsX hrun2 _ _ hslot
  have hk2 : s.opened ∈ (liveAfter (s.entered file func line now).opened (s.opened :: live) X).2 := by
    simpa using hk
  obtain ⟨mk, hmk, hstep⟩ := h2.step_leave s.opened stop hk2
  have hmm : mk = m2 := by rw [hm2] at hmk; exact (Option.some.inj hmk).symm
  subst hmm
  have h3 := h2.left_inv s.opened mk stop
  have hlt : s.opened < s2.buf.m_markers.length := (List.getElem?_eq_some.mp hm2).1
  have hslot3 : (s2.left s.opened mk stop).buf.m_markers[s.opened]?
      = some ⟨file, func, now, stop, line⟩ := by
    obtain ⟨hf, hfn, hb, hl⟩ := hsame2
    simp only at hf hfn hb hl
    simp [ThreadRun.left, List.getElem?_set, hlt, hf, hfn, hb, hl]
  have hsY3 : wellScoped (s2.left s.opened mk stop).opened
      ((liveAfter (s.entered file func line now).opened (s.opened :: live) X).2.filter
        (fun j => j != s.opened)) Y = true := by
    show wellScoped s2.opened _ Y = true
    rw [hop2]; exact hsY
  obtain ⟨s', hrun', -, -, -, -, -⟩ := ThreadRun.run_scoped Y _ _ h3 hsY3
  obtain ⟨m', hm', -, hdead⟩ := ThreadRun.run_frame Y _ _ _ h3 hsY3 hrun' _ _ hslot3
  have hm'eq := (hdead (by simp)).1
  subst hm'eq
  refine ⟨s', ?_, hm'⟩
  simp only [ThreadRun.run, ThreadRun.step_enter]
  rw [ThreadRun.run_append, hrun2]
  simp only [Option.bind, ThreadRun.run, hstep, hrun']

theorem enterLabels_append (xs ys : List ScopeEvent) :
    enterLabels (xs ++ ys) = enterLabels xs ++ enterLabels ys := by
  induction xs with
  | nil => rfl
  | cons e es ih => cases e <;> simp [enterLabels, ih]

/-- A well-scoped run from the empty buffer, cut after a prefix. -/
theorem ThreadRun.run_prefix (name : String) (threadId : Nat) (P Q : List ScopeEvent)
    (hs : wellScoped 0 [] (P ++ Q) = true) :
    ∃ s live, (ThreadRun.mk ⟨[], name, threadId⟩ 0 []).run P = some s ∧ s.Inv live ∧
      s.opened = (enterLabels P).length ∧ wellScoped s.opened live Q = true := by
  have hinv : (ThreadRun.mk ⟨[], name, threadId⟩ 0 []).Inv [] := ⟨rfl, rfl, by simp⟩
  rw [wellScoped_append, Bool.and_eq_true] at hs
  obtain ⟨s, hrun, hi, ho, -, -, -⟩ := ThreadRun.run_scoped P _ _ hinv hs.1
  have ho' : s.opened = (enterLabels P).length := by
    rw [ho, liveAfter_fst]; simp
  refine ⟨s, _, hrun, hi, ho', ?_⟩
  rw [ho]; exact hs.2

/-- C7: on one thread, when an inner guard is constructed after an outer one and
destroyed before it (any other guards around and in between, no flush,
non-decreasing clock readings), the two markers recorded satisfy
outer begin ≤ inner begin ≤ inner end ≤ outer end. -/
theorem C7_nested_interval_contained (name : String) (threadId : Nat)
    (A B C D E : List ScopeEvent)
    (fileO funcO : String) (lineO beginO endO : Int)
    (fileI funcI : String) (lineI beginI endI : Int)
    (hscoped : wellScoped 0 []
      (A ++ .enter fileO funcO lineO beginO ::
        (B ++ .enter fileI funcI lineI beginI ::
          (C ++ .leave ((enterLabels A).length + 1 + (enterLabels B).length) endI ::
            (D ++ .leave (enterLabels A).length endO :: E)))) = true)
    (hclock : nonDecreasing
      ((A ++ .enter fileO funcO lineO beginO ::
        (B ++ .enter fileI funcI lineI beginI ::
          (C ++ .leave ((enterLabels A).length + 1 + (enterLabels B).length) endI ::
            (D ++ .leave (enterLabels A).length endO :: E)))).map ScopeEvent.now) = true) :
    ∃ s outer inner,
      (ThreadRun.mk ⟨[], name, threadId⟩ 0 []).run
        (A ++ .enter fileO funcO lineO beginO ::
          (B ++ .enter fileI funcI lineI beginI ::
            (C ++ .leave ((enterLabels A).length + 1 + (enterLabels B).length) endI ::
              (D ++ .leave (enterLabels A).length endO :: E)))) = some s ∧
      s.buf.m_markers[(enterLabels A).length]? = some outer ∧
      s.buf.m_markers[(enterLabels A).length + 1 + (enterLabels B).length]? = some inner ∧
      outer.m_func = funcO ∧ inner.m_func = funcI ∧
      outer.m_begin ≤ inner.m_begin ∧ inner.m_begin ≤ inner.m_end ∧
      inner.m_end ≤ outer.m_end := by
  have hinv : (ThreadRun.mk ⟨[], name, threadId⟩ 0 []).Inv [] := ⟨rfl, rfl, by simp⟩
  -- the clock readings of the four events, in order
  have hpw := List.chain'_iff_pairwise.mp (nonDecreasing_chain _ hclock)
  simp only [List.map_append, List.map_cons, List.pairwise_append, List.pairwise_cons,
    List.mem_append, List.mem_cons, ScopeEvent.now] at hpw
  have h1 : beginO ≤ beginI := hpw.2.1.1 _ (Or.inr (Or.inl rfl))
  have h2 : beginI ≤ endI := hpw.2.1.2.2.1.1 _ (Or.inr (Or.inl rfl))
  have h3 : endI ≤ endO := hpw.2.1.2.2.1.2.2.1.1 _ (Or.inr (Or.inl rfl))
  -- the outer guard
  obtain ⟨sA, liveA, hrunA, hinvA, hopA, hsA⟩ := ThreadRun.run_prefix name threadId A _ hscoped
  have hassoc : B ++ .enter fileI funcI lineI beginI ::
      (C ++ .leave ((enterLabels A).length + 1 + (enterLabels B).length) endI ::
        (D ++ .leave (enterLabels A).length endO :: E))
      = (B ++ .enter fileI funcI lineI beginI ::
          (C ++ .leave ((enterLabels A).length + 1 + (enterLabels B).length) endI :: D))
        ++ .leave (enterLabels A).length endO :: E := by
    simp [List.append_assoc]
  rw [hassoc, ← hopA] at hsA
  obtain ⟨s, hrunO, hslotO⟩ := ThreadRun.run_guard sA liveA hinvA _ _ _ _ _ _ _ hsA
  rw [hopA, ← hassoc] at hrunO
  rw [hopA] at hslotO
  have hrun : (ThreadRun.mk ⟨[], name, threadId⟩ 0 []).run
      (A ++ .enter fileO funcO lineO beginO ::
        (B ++ .enter fileI funcI lineI beginI ::
          (C ++ .leave ((enterLabels A).length + 1 + (enterLabels B).length) endI ::
            (D ++ .leave (enterLabels A).length endO :: E)))) = some s := by
    rw [ThreadRun.run_append, hrunA]; exact hrunO
  -- the inner guard
  have hsplit : A ++ .enter fileO funcO lineO beginO ::
        (B ++ .enter fileI funcI lineI beginI ::
          (C ++ .leave ((enterLabels A).length + 1 + (enterLabels B).length) endI ::
            (D ++ .leave (enterLabels A).length endO :: E)))
      = (A ++ .enter fileO funcO lineO beginO :: B) ++ .enter fileI funcI lineI beginI ::
          (C ++ .leave ((enterLabels A).length + 1 + (enterLabels B).length) endI ::
            (D ++ .leave (enterLabels A).length endO :: E)) := by
    simp [List.append_assoc]
  have hscoped' := hscoped
  rw [hsplit] at hscoped'
  obtain ⟨sP, liveP, hrunP, hinvP, hopP, hsP⟩ :=
    ThreadRun.run_prefix name threadId _ _ hscoped'
  have hki : (enterLabels (A ++ .enter fileO funcO lineO beginO :: B)).length
      = (enterLabels A).length + 1 + (enterLabels B).length := by
    simp [enterLabels_append, enterLabels]; omega
  rw [hki] at hopP
  rw [← hopP] at hsP
  obtain ⟨s₂, hrunI, hslotI⟩ := ThreadRun.run_guard sP liveP hinvP _ _ _ _ _ _ _ hsP
  rw [hopP] at hrunI hslotI
  have hrun₂ := hrun
  rw [hsplit, ThreadRun.run_append, hrunP] at hrun₂
  have hs₂ : s₂ = s := Option.some.inj (hrunI.symm.trans hrun₂)
  subst hs₂
  exact ⟨s₂, _, _, hrun, hslotO, hslotI, rfl, rfl, h1, h2, h3⟩

theorem C7_nested_interval_contained_witness :
    ∃ s outer inner,
      (ThreadRun.mk ⟨[], "main", 7⟩ 0 []).run
        ([] ++ .enter "a.cpp" "outer" 3 10 ::
          ([] ++ .enter "a.cpp" "inner" 5 20 ::
            ([] ++ .leave ((enterLabels []).length + 1 + (enterLabels []).length) 30 ::
              ([] ++ .leave (enterLabels []).length 40 :: [])))) = some s ∧
      s.buf.m_markers[(enterLabels []).length]? = some outer ∧
      s.buf.m_markers[(enterLabels []).length + 1 + (enterLabels []).length]? = some inner ∧
      outer.m_func = "outer" ∧ inner.m_func = "inner" ∧
      outer.m_begin ≤ inner.m_begin ∧ inner.m_begin ≤ inner.m_end ∧
      inner.m_end ≤ outer.m_end :=
  C7_nested_interval_contained "main" 7 [] [] [] [] [] "a.cpp" "outer" 3 10 40
    "a.cpp" "inner" 5 20 30 (by decide) (by decide)

theorem C6_markers_in_activation_order_witness :
    ∃ s, (ThreadRun.mk ⟨[], "main", 7⟩ 0 []).run
        [.enter "a.cpp" "outer" 3 10, .enter "a.cpp" "inner" 5 20, .leave 1 30,
          .enter "a.cpp" "next" 6 35, .leave 0 40, .leave 2 40] = some s ∧
      s.buf.m_markers.length = 3 ∧
      s.buf.m_markers.map TraceMarker.m_func = ["outer", "inner", "next"] ∧
      ∀ m ∈ s.buf.m_markers, m.m_begin ≤ m.m_end :=
  C6_markers_in_activation_order "main" 7
    [.enter "a.cpp" "outer" 3 10, .enter "a.cpp" "inner" 5 20, .leave 1 30,
      .enter "a.cpp" "next" 6 35, .leave 0 40, .leave 2 40] (by decide) (by decide)

/-! ### Guards and flushes -/

theorem Process.flush_eq_write_clear (p : Process) :
    p.step .flush = (p.step .flushWrite).bind (fun p' => p'.step .flushClear) := by
  cases hs : p.stream with
  | some st => simp [Process.step, hs]
  | none => simp [Process.step, hs, saveCollectedTracing]

/-- C5 fails on the code: a thread constructs a guard and `saveCollectedTracing`
runs while the guard is alive.  `clearAll` empties the deque, so the guard, still
alive, holds a pointer to a slot that is no longer there, and its destructor
writes through that pointer.  Without the flush the slot is there. -/
theorem C5_flush_invalidates_live_handle :
    (∃ p, Process.init.run [.start 7, .enter ⟨0⟩ "main.cpp" "work" 12 100, .flush] = some p ∧
      p.guards = [(0, ⟨0⟩, ⟨0⟩)] ∧
      p.s_traceManager.m_traceThreads = [⟨[], "", 7⟩] ∧
      p.handleLive ⟨0⟩ ⟨0⟩ = false ∧
      (ScopedTrace.mk 0).dtor ⟨[], "", 7⟩ 150 = none ∧
      p.step (.leave 0 150) = none)
    ∧ (∃ q, Process.init.run [.start 7, .enter ⟨0⟩ "main.cpp" "work" 12 100] = some q ∧
      q.guards = [(0, ⟨0⟩, ⟨0⟩)] ∧ q.handleLive ⟨0⟩ ⟨0⟩ = true) := by
  refine ⟨⟨_, rfl, ?_⟩, ⟨_, rfl, ?_⟩⟩ <;> decide

/-- C10 fails on the code: `saveCollectedTracing` takes the registry mutex once
in `writeAll` and once more in `clearAll`, and a producer takes it never.  A
scope recorded between the two is removed by `clearAll` without having been
written: neither this flush nor the next one has it in its file.  Recorded
before the flush starts, the same scope is written. -/
theorem C10_marker_lost_between_write_and_clear :
    (∃ p, Process.init.run
        [.start 7, .flushWrite, .enter ⟨0⟩ "main.cpp" "work" 12 100, .leave 0 150,
          .flushClear, .flush] = some p ∧
      p.files = ["[\n\n]\n", "[\n\n]\n"] ∧
      p.s_traceManager.m_traceThreads = [⟨[], "", 7⟩])
    ∧ (∃ q, Process.init.run
        [.start 7, .enter ⟨0⟩ "main.cpp" "work" 12 100, .leave 0 150,
          .flushWrite, .flushClear, .flush] = some q ∧
      q.files = ["[\n" ++ (TraceMarker.mk "main.cpp" "work" 100 150 12).write "" 7 ++ "\n]\n",
        "[\n\n]\n"]) := by
  refine ⟨⟨_, rfl, ?_⟩, ⟨_, rfl, ?_⟩⟩ <;> decide

/-! ### Thread names -/

theorem TraceThreadMarkers.texts_setThreadName (buf : TraceThreadMarkers) (name : String) :
    (TraceThreadManager.setThreadName buf name).texts = buf.texts := rfl

theorem flatMap_set_of_eq {α β : Type} (f : α → List β) (l : List α) (i : Nat) (a b : α)
    (h : l[i]? = some a) (hf : f b = f a) : (l.set i b).flatMap f = l.flatMap f := by
  induction l generalizing i with
  | nil => simp
  | cons x l ih =>
    cases i with
    | zero =>
      simp only [List.getElem?_cons_zero, Option.some.injEq] at h
      subst h
      simp [List.flatMap_cons, hf]
    | succ j =>
      simp only [List.getElem?_cons_succ] at h
      simp [List.flatMap_cons, ih j h]

theorem setTraceThreadName_eq (mgr : TraceManager) (tm : TraceThreadManager)
    (buf : TraceThreadMarkers) (name : String)
    (h : mgr.m_traceThreads[tm.m_markersPtr]? = some buf) :
    setTraceThreadName mgr tm name
      = some ⟨mgr.m_traceThreads.set tm.m_markersPtr { buf with m_threadName := name }⟩ := by
  simp [setTraceThreadName, h, TraceThreadManager.setThreadName]

theorem setTraceThreadNames_eq (names : List String) :
    ∀ (mgr : TraceManager) (tm : TraceThreadManager) (buf : TraceThreadMarkers) (name : String),
      mgr.m_traceThreads[tm.m_markersPtr]? = some buf →
      setTraceThreadNames mgr tm (name :: names)
        = some ⟨mgr.m_traceThreads.set tm.m_markersPtr
            { buf with m_threadName := (name :: names).getLast (by simp) }⟩ := by
  induction names with
  | nil =>
    intro mgr tm buf name h
    simp [setTraceThreadNames, setTraceThreadName_eq mgr tm buf name h]
  | cons n ns ih =>
    intro mgr tm buf name h
    have hlt : tm.m_markersPtr < mgr.m_traceThreads.length := (List.getElem?_eq_some.mp h).1
    have h' : (TraceManager.mk (mgr.m_traceThreads.set tm.m_markersPtr
        { buf with m_threadName := name })).m_traceThreads[tm.m_markersPtr]?
        = some { buf with m_threadName := name } := by
      simp [List.getElem?_set, hlt]
    rw [setTraceThreadNames, setTraceThreadName_eq mgr tm buf name h]
    simp only
    rw [ih _ tm _ n h']
    simp [List.getLast_cons]

theorem saveCollectedTracing_set_name (mgr : TraceManager) (i : Nat) (buf : TraceThreadMarkers)
    (name : String) (h : mgr.m_traceThreads[i]? = some buf) :
    (saveCollectedTracing ⟨mgr.m_traceThreads.set i { buf with m_threadName := name }⟩).1
      = (saveCollectedTracing mgr).1 := by
  rw [saveCollectedTracing_text, saveCollectedTracing_text]
  have : (TraceManager.mk (mgr.m_traceThreads.set i { buf with m_threadName := name })).texts
      = mgr.texts := by
    simp only [TraceManager.texts]
    exact flatMap_set_of_eq _ _ _ _ _ h rfl
  rw [this]

/-- C13: on a thread with a registered buffer, calls of `setTraceThreadName` with
the names `n1, ..., nk` in turn (`k` at least one, the empty name allowed) leave
the same registry as the single call with `nk`: the buffer of the thread has the
name `nk` and the markers and the thread id it had, every other buffer is as it
was, and a flush afterwards writes the text it would have written without the
calls. -/
theorem C13_last_thread_name_wins (mgr : TraceManager) (tm : TraceThreadManager)
    (buf : TraceThreadMarkers) (name : String) (names : List String)
    (h : mgr.m_traceThreads[tm.m_markersPtr]? = some buf) :
    ∃ mgr', setTraceThreadNames mgr tm (name :: names) = some mgr' ∧
      setTraceThreadName mgr tm ((name :: names).getLast (List.cons_ne_nil _ _)) = some mgr' ∧
      mgr'.m_traceThreads[tm.m_markersPtr]?
        = some ⟨buf.m_markers, (name :: names).getLast (List.cons_ne_nil _ _), buf.m_threadId⟩ ∧
      mgr'.m_traceThreads.length = mgr.m_traceThreads.length ∧
      (∀ i, i ≠ tm.m_markersPtr → mgr'.m_traceThreads[i]? = mgr.m_traceThreads[i]?) ∧
      (saveCollectedTracing mgr').1 = (saveCollectedTracing mgr).1 := by
  have hlt : tm.m_markersPtr < mgr.m_traceThreads.length := (List.getElem?_eq_some.mp h).1
  refine ⟨_, setTraceThreadNames_eq names mgr tm buf name h,
    setTraceThreadName_eq mgr tm buf _ h, ?_, ?_, ?_, saveCollectedTracing_set_name _ _ _ _ h⟩
  · simp [List.getElem?_set, hlt]
  · simp
  · intro i hi
    simp [List.getElem?_set, Ne.symm hi]

theorem C13_last_thread_name_wins_witness :
    ∃ mgr', setTraceThreadNames
        ⟨[⟨[], "", 7⟩, ⟨[⟨"a.cpp", "work", 100, 150, 3⟩], "old", 8⟩]⟩ ⟨1⟩ ["io", "net", ""]
          = some mgr' ∧
      setTraceThreadName
        ⟨[⟨[], "", 7⟩, ⟨[⟨"a.cpp", "work", 100, 150, 3⟩], "old", 8⟩]⟩ ⟨1⟩ "" = some mgr' ∧
      mgr'.m_traceThreads[1]? = some ⟨[⟨"a.cpp", "work", 100, 150, 3⟩], "", 8⟩ ∧
      mgr'.m_traceThreads.length = 2 ∧
      (∀ i, i ≠ 1 → mgr'.m_traceThreads[i]?
        = (TraceManager.mk
            [⟨[], "", 7⟩, ⟨[⟨"a.cpp", "work", 100, 150, 3⟩], "old", 8⟩]).m_traceThreads[i]?) ∧
      (saveCollectedTracing mgr').1
        = (saveCollectedTracing
            ⟨[⟨[], "", 7⟩, ⟨[⟨"a.cpp", "work", 100, 150, 3⟩], "old", 8⟩]⟩).1 :=
  C13_last_thread_name_wins
    ⟨[⟨[], "", 7⟩, ⟨[⟨"a.cpp", "work", 100, 150, 3⟩], "old", 8⟩]⟩ ⟨1⟩
    ⟨[⟨"a.cpp", "work", 100, 150, 3⟩], "old", 8⟩ "io" ["net", ""] rfl

/-! ### What the flush text depends on -/

theorem TraceMarker.write_congr (m₁ m₂ : TraceMarker) (t : Nat)
    (h : (m₁.m_func, m₁.m_begin, m₁.m_end) = (m₂.m_func, m₂.m_begin, m₂.m_end)) :
    m₁.write "" t = m₂.write "" t := by
  simp only [Prod.mk.injEq] at h
  simp only [TraceMarker.write, h.1, h.2.1, h.2.2]

theorem TraceThreadMarkers.texts_of_written (b₁ b₂ : TraceThreadMarkers)
    (h : (b₁.m_threadId, b₁.m_markers.map (fun m => (m.m_func, m.m_begin, m.m_end)))
      = (b₂.m_threadId, b₂.m_markers.map (fun m => (m.m_func, m.m_begin, m.m_end)))) :
    b₁.texts = b₂.texts := by
  simp only [Prod.mk.injEq] at h
  obtain ⟨hid, hm⟩ := h
  simp only [TraceThreadMarkers.texts, hid]
  generalize b₁.m_markers = l₁ at hm
  generalize b₂.m_markers = l₂ at hm
  induction l₁ generalizing l₂ with
  | nil =>
    cases l₂ with
    | nil => rfl
    | cons a l => simp at hm
  | cons a l ih =>
    cases l₂ with
    | nil => simp at hm
    | cons a' l' =>
      simp only [List.map_cons, List.cons.injEq] at hm
      simp only [List.map_cons, List.cons.injEq]
      exact ⟨TraceMarker.write_congr a a' _ (by simp [hm.1]), ih l' hm.2⟩

theorem TraceManager.texts_congr (mgr₁ mgr₂ : TraceManager) (h : mgr₁.written = mgr₂.written) :
    mgr₁.texts = mgr₂.texts := by
  simp only [TraceManager.written] at h
  simp only [TraceManager.texts]
  generalize mgr₁.m_traceThreads = l₁ at h
  generalize mgr₂.m_traceThreads = l₂ at h
  induction l₁ generalizing l₂ with
  | nil =>
    cases l₂ with
    | nil => rfl
    | cons a l => simp at h
  | cons a l ih =>
    cases l₂ with
    | nil => simp at h
    | cons a' l' =>
      simp only [List.map_cons, List.cons.injEq] at h
      simp only [List.flatMap_cons]
      rw [TraceThreadMarkers.texts_of_written a a' h.1, ih l' h.2]

/-- C14: two registries that agree, buffer by buffer, on the thread id and, marker
by marker, on label, begin and end get the same text written by
`saveCollectedTracing`, whatever their thread names and the files and lines of
their markers. -/
theorem C14_flush_ignores_names_files_lines (mgr₁ mgr₂ : TraceManager)
    (h : mgr₁.written = mgr₂.written) :
    (saveCollectedTracing mgr₁).1 = (saveCollectedTracing mgr₂).1 := by
  rw [saveCollectedTracing_text, saveCollectedTracing_text, TraceManager.texts_congr _ _ h]

theorem C14_flush_ignores_names_files_lines_witness :
    (saveCollectedTracing ⟨[⟨[⟨"a.cpp", "work", 100, 150, 3⟩], "io", 7⟩, ⟨[], "ui", 8⟩]⟩).1
      = (saveCollectedTracing ⟨[⟨[⟨"b.cpp", "work", 100, 150, 99⟩], "", 7⟩, ⟨[], "x", 8⟩]⟩).1 :=
  C14_flush_ignores_names_files_lines _ _ (by decide)

/-! ### Single operations -/

/-- C15: the clear step of a flush leaves every registered buffer without
markers, those that were written and those skipped as empty alike, and touches
nothing else: the registry lists as many buffers as before, and the buffer at
each position keeps its thread name and its thread id, so that a thread has the
same id in every flush. -/
theorem C15_clear_keeps_buffers_names_ids (mgr : TraceManager) :
    (saveCollectedTracing mgr).2 = mgr.clearAll
    ∧ (∀ b ∈ mgr.clearAll.m_traceThreads, b.m_markers = [])
    ∧ mgr.clearAll.m_traceThreads.length = mgr.m_traceThreads.length
    ∧ (∀ (i : Nat) (b : TraceThreadMarkers), mgr.m_traceThreads[i]? = some b →
        mgr.clearAll.m_traceThreads[i]? = some ⟨[], b.m_threadName, b.m_threadId⟩)
    ∧ mgr.clearAll.m_traceThreads.map (fun b => (b.m_threadName, b.m_threadId))
        = mgr.m_traceThreads.map (fun b => (b.m_threadName, b.m_threadId))
    ∧ (saveCollectedTracing (saveCollectedTracing mgr).2).2.m_traceThreads.map
          (fun b => b.m_threadId)
        = mgr.m_traceThreads.map (fun b => b.m_threadId) := by
  refine ⟨rfl, TraceManager.clearAll_no_marker mgr, ?_, ?_, ?_, ?_⟩
  · simp [TraceManager.clearAll]
  · intro i b h
    simp [TraceManager.clearAll, List.getElem?_map, h]
  · simp [TraceManager.clearAll, List.map_map, Function.comp_def]
  · simp [saveCollectedTracing, TraceManager.clearAll, List.map_map, Function.comp_def]

theorem C15_clear_keeps_buffers_names_ids_witness :
    (TraceManager.clearAll
        ⟨[⟨[⟨"a.cpp", "work", 100, 150, 3⟩], "io", 7⟩, ⟨[], "ui", 8⟩]⟩).m_traceThreads[0]?
      = some ⟨[], "io", 7⟩ :=
  (C15_clear_keeps_buffers_names_ids
    (TraceManager.mk [⟨[⟨"a.cpp", "work", 100, 150, 3⟩], "io", 7⟩, ⟨[], "ui", 8⟩])).2.2.2.1
    0 ⟨[⟨"a.cpp", "work", 100, 150, 3⟩], "io", 7⟩ rfl

/-- C16: `createMarker` appends exactly one marker at the end of the sequence, a
marker with begin and end zero, and returns the position of that marker; every
marker that was in the sequence keeps its position and all its fields, so the
handle of an earlier `createMarker` still designates the marker it designated;
thread name and thread id stay. -/
theorem C16_createMarker_appends_one (buf : TraceThreadMarkers) :
    (TraceThreadManager.createMarker buf).1.m_markers
        = buf.m_markers ++ [⟨"", "", 0, 0, 0⟩]
    ∧ (TraceThreadManager.createMarker buf).1.m_markers.length = buf.m_markers.length + 1
    ∧ (TraceThreadManager.createMarker buf).2 = buf.m_markers.length
    ∧ (∃ m, (TraceThreadManager.createMarker buf).1.m_markers[
          (TraceThreadManager.createMarker buf).2]? = some m ∧ m.m_begin = 0 ∧ m.m_end = 0)
    ∧ (∀ (i : Nat) (m : TraceMarker), buf.m_markers[i]? = some m →
        (TraceThreadManager.createMarker buf).1.m_markers[i]? = some m)
    ∧ (TraceThreadManager.createMarker buf).1.m_threadName = buf.m_threadName
    ∧ (TraceThreadManager.createMarker buf).1.m_threadId = buf.m_threadId := by
  refine ⟨rfl, by simp [TraceThreadManager.createMarker],
    by simp [TraceThreadManager.createMarker], ⟨⟨"", "", 0, 0, 0⟩, ?_, rfl, rfl⟩, ?_, rfl, rfl⟩
  · simp [TraceThreadManager.createMarker]
  · intro i m h
    have hlt : i < buf.m_markers.length := (List.getElem?_eq_some.mp h).1
    simp only [TraceThreadManager.createMarker]
    rw [List.getElem?_append_left hlt]
    exact h

theorem C16_createMarker_appends_one_witness :
    (TraceThreadManager.createMarker ⟨[⟨"a.cpp", "work", 100, 150, 3⟩], "io", 7⟩).1.m_markers[0]?
      = some ⟨"a.cpp", "work", 100, 150, 3⟩ :=
  (C16_createMarker_appends_one ⟨[⟨"a.cpp", "work", 100, 150, 3⟩], "io", 7⟩).2.2.2.2.1
    0 ⟨"a.cpp", "work", 100, 150, 3⟩ rfl

theorem ScopedTrace.dtor_eq (g : ScopedTrace) (buf : TraceThreadMarkers) (m : TraceMarker)
    (now : Int) (h : buf.m_markers[g.m_marker]? = some m) :
    g.dtor buf now
      = some { buf with m_markers := buf.m_markers.set g.m_marker { m with m_end := now } } := by
  simp [ScopedTrace.dtor, TraceThreadMarkers.store, h]

/-! ### The registry along a run -/

theorem TraceThreadManager.ctor_registers (mgr : TraceManager) (threadId : Nat) :
    TraceThreadManager.ctor mgr threadId
      = (⟨mgr.m_traceThreads ++ [⟨[], "", threadId⟩]⟩, ⟨mgr.m_traceThreads.length⟩) := rfl

theorem entries_set (l : List TraceThreadMarkers) (i : Nat) (b b' : TraceThreadMarkers)
    (h : l[i]? = some b) (hname : b'.m_threadName = b.m_threadName)
    (hid : b'.m_threadId = b.m_threadId) :
    (l.set i b').map (fun b => (b.m_threadName, b.m_threadId))
      = l.map (fun b => (b.m_threadName, b.m_threadId)) := by
  induction l generalizing i with
  | nil => simp
  | cons x l ih =>
    cases i with
    | zero =>
      simp only [List.getElem?_cons_zero, Option.some.injEq] at h
      subst h
      simp [hid, hname]
    | succ j =>
      simp only [List.getElem?_cons_succ] at h
      simp [ih j h]

theorem TraceThreadMarkers.store_frame (buf buf' : TraceThreadMarkers) (p : Nat)
    (f : TraceMarker → TraceMarker) (h : buf.store p f = some buf') :
    buf'.m_threadName = buf.m_threadName ∧ buf'.m_threadId = buf.m_threadId := by
  simp only [TraceThreadMarkers.store] at h
  split at h
  · simp only [Option.some.injEq] at h; subst h; exact ⟨rfl, rfl⟩
  · simp at h

theorem Process.step_entries (p p' : Process) (a : Action) (h : p.step a = some p') :
    p'.s_traceManager.entries
      = p.s_traceManager.entries ++ a.registers.map (fun threadId => ("", threadId)) := by
  cases a with
  | start threadId =>
    simp only [Process.step, Option.some.injEq] at h
    subst h
    simp [TraceManager.entries, Action.registers, TraceThreadManager.ctor_registers]
  | enter thread file func line now =>
    simp only [Process.step] at h
    split at h
    · simp at h
    · rename_i buf hbuf
      rw [ScopedTrace.ctor_eq] at h
      simp only [Option.some.injEq] at h
      subst h
      simp only [TraceManager.entries, Action.registers, List.map_nil, List.append_nil]
      exact entries_set _ _ _ _ hbuf rfl rfl
  | leave k now =>
    simp only [Process.step] at h
    split at h
    · simp at h
    · split at h
      · simp at h
      · rename_i buf hbuf
        split at h
        · simp at h
        · rename_i buf' hd
          simp only [Option.some.injEq] at h
          subst h
          have hf := TraceThreadMarkers.store_frame _ _ _ _ hd
          simp only [TraceManager.entries, Action.registers, List.map_nil, List.append_nil]
          exact entries_set _ _ _ _ hbuf hf.1 hf.2
  | flush =>
    simp only [Process.step] at h
    split at h
    · simp at h
    · simp only [Option.some.injEq] at h
      subst h
      simp [TraceManager.entries, Action.registers, saveCollectedTracing,
        TraceManager.clearAll, List.map_map, Function.comp_def]
  | flushWrite =>
    simp only [Process.step] at h
    split at h
    · simp at h
    · simp only [Option.some.injEq] at h
      subst h
      simp [TraceManager.entries, Action.registers]
  | flushClear =>
    simp only [Process.step] at h
    split at h
    · simp at h
    · simp only [Option.some.injEq] at h
      subst h
      simp [TraceManager.entries, Action.registers, TraceManager.clearAll, List.map_map,
        Function.comp_def]

theorem TraceManager.entries_length (mgr : TraceManager) :
    mgr.entries.length = mgr.m_traceThreads.length := by
  simp [TraceManager.entries]

theorem Process.step_length (p p' : Process) (a : Action) (h : p.step a = some p') :
    p'.s_traceManager.m_traceThreads.length
      = p.s_traceManager.m_traceThreads.length + a.registers.length := by
  have := congrArg List.length (Process.step_entries p p' a h)
  simpa [TraceManager.entries] using this

theorem setTraceThreadName_frame (mgr mgr' : TraceManager) (tm : TraceThreadManager)
    (name : String) (h : setTraceThreadName mgr tm name = some mgr') :
    mgr'.m_traceThreads.length = mgr.m_traceThreads.length ∧
    mgr'.m_traceThreads.map (fun b => (b.m_markers, b.m_threadId))
      = mgr.m_traceThreads.map (fun b => (b.m_markers, b.m_threadId)) := by
  simp only [setTraceThreadName] at h
  split at h
  · simp at h
  · rename_i buf hbuf
    simp only [Option.some.injEq] at h
    subst h
    refine ⟨by simp, ?_⟩
    apply List.ext_getElem?
    intro i
    by_cases hi : i = tm.m_markersPtr
    · subst hi
      have hlt := (List.getElem?_eq_some.mp hbuf).1
      have hget := (List.getElem?_eq_some.mp hbuf).2
      simp [List.getElem?_map, List.getElem?_set, hlt, hget, TraceThreadManager.setThreadName]
    · simp [List.getElem?_map, List.getElem?_set, Ne.symm hi]

theorem Process.reachable_managers (p : Process) (tms : List TraceThreadManager)
    (h : Process.Reachable p tms) :
    tms.map TraceThreadManager.m_markersPtr = List.range p.s_traceManager.m_traceThreads.length := by
  induction h with
  | init => rfl
  | step p p' tms a _ hstep ih =>
    rw [Process.step_length p p' a hstep]
    cases a with
    | start threadId =>
      simp [Action.constructs, Action.registers, TraceThreadManager.ctor_registers, ih,
        List.range_succ]
    | enter thread file func line now => simpa [Action.constructs, Action.registers] using ih
    | leave k now => simpa [Action.constructs, Action.registers] using ih
    | flush => simpa [Action.constructs, Action.registers] using ih
    | flushWrite => simpa [Action.constructs, Action.registers] using ih
    | flushClear => simpa [Action.constructs, Action.registers] using ih
  | name p tms tm name mgr _ hname ih =>
    rw [(setTraceThreadName_frame _ _ _ _ hname).1]
    exact ih

/-- C20: the constructor of a thread's manager appends exactly one buffer,
without markers, at the end of the registry and designates it; every other
operation (construction and destruction of a guard, with the `createMarker`
inside, both halves of a flush, `setTraceThreadName`) leaves the registry with
the entries it had, in the order they had; so in every reachable state the
k-th manager constructed designates the k-th entry of the registry, which has
one entry per manager and none listed for two of them. -/
theorem C20_registered_once_never_removed :
    (∀ (mgr : TraceManager) (threadId : Nat),
      (TraceThreadManager.ctor mgr threadId).1.m_traceThreads
          = mgr.m_traceThreads ++ [⟨[], "", threadId⟩]
      ∧ (TraceThreadManager.ctor mgr threadId).2.m_markersPtr = mgr.m_traceThreads.length)
    ∧ (∀ (p p' : Process) (a : Action), p.step a = some p' →
      p'.s_traceManager.entries
          = p.s_traceManager.entries ++ a.registers.map (fun threadId => ("", threadId))
      ∧ p'.s_traceManager.m_traceThreads.length
          = p.s_traceManager.m_traceThreads.length + a.registers.length)
    ∧ (∀ (mgr mgr' : TraceManager) (tm : TraceThreadManager) (name : String),
      setTraceThreadName mgr tm name = some mgr' →
      mgr'.m_traceThreads.length = mgr.m_traceThreads.length
      ∧ mgr'.m_traceThreads.map (fun b => (b.m_markers, b.m_threadId))
          = mgr.m_traceThreads.map (fun b => (b.m_markers, b.m_threadId)))
    ∧ (∀ mgr : TraceManager, mgr.clearAll.entries = mgr.entries)
    ∧ (∀ (p : Process) (tms : List TraceThreadManager), Process.Reachable p tms →
      tms.map TraceThreadManager.m_markersPtr
          = List.range p.s_traceManager.m_traceThreads.length
      ∧ tms.length = p.s_traceManager.m_traceThreads.length
      ∧ tms.Nodup) := by
  refine ⟨fun mgr threadId => ⟨rfl, rfl⟩,
    fun p p' a h => ⟨Process.step_entries p p' a h, Process.step_length p p' a h⟩,
    setTraceThreadName_frame, ?_, ?_⟩
  · intro mgr
    simp [TraceManager.entries, TraceManager.clearAll, List.map_map, Function.comp_def]
  · intro p tms h
    have hm := Process.reachable_managers p tms h
    refine ⟨hm, ?_, ?_⟩
    · have := congrArg List.length hm
      simpa using this
    · have hn : (tms.map TraceThreadManager.m_markersPtr).Nodup := by
        rw [hm]; exact List.nodup_range _
      exact List.Nodup.of_map _ hn

theorem C20_registered_once_never_removed_witness :
    [TraceThreadManager.mk 0, TraceThreadManager.mk 1].map TraceThreadManager.m_markersPtr
        = List.range (TraceManager.m_traceThreads
            ⟨[⟨[⟨"a.cpp", "work", 100, 100, 3⟩], "", 7⟩, ⟨[], "", 8⟩]⟩).length
      ∧ [TraceThreadManager.mk 0, TraceThreadManager.mk 1].length = 2
      ∧ [TraceThreadManager.mk 0, TraceThreadManager.mk 1].Nodup :=
  C20_registered_once_never_removed.2.2.2.2
    ⟨⟨[⟨[⟨"a.cpp", "work", 100, 100, 3⟩], "", 7⟩, ⟨[], "", 8⟩]⟩, 1, [(0, ⟨0⟩, ⟨0⟩)], none, []⟩
    [⟨0⟩, ⟨1⟩]
    (Process.Reachable.step _ _ _ (.enter ⟨0⟩ "a.cpp" "work" 3 100)
      (Process.Reachable.step _ _ _ (.start 8)
        (Process.Reachable.step _ _ _ (.start 7) Process.Reachable.init rfl) rfl) rfl)

/-! ### Thread ids -/

/-- C12 fails on the code: the thread id stored is what `std::stoull` reads from
the text of `std::this_thread::get_id()`.  Where that text is hexadecimal with
the prefix `0x`, the reading stops after the leading zero: two distinct threads,
with distinct texts, both get the thread id 0.  Where the text starts with no
digit, the constructor throws.  Distinct decimal texts give distinct ids. -/
theorem C12_thread_id_from_text_collides :
    stoull "0x70000a1c4000" = some 0
    ∧ stoull "0x70000a247000" = some 0
    ∧ (∃ mgr₁ tm₁ mgr₂ tm₂,
        TraceThreadManager.ctorOfText ⟨[]⟩ "0x70000a1c4000" = some (mgr₁, tm₁) ∧
        TraceThreadManager.ctorOfText mgr₁ "0x70000a247000" = some (mgr₂, tm₂) ∧
        tm₁ ≠ tm₂ ∧
        mgr₂.m_traceThreads = [⟨[], "", 0⟩, ⟨[], "", 0⟩])
    ∧ TraceThreadManager.ctorOfText ⟨[]⟩ "thread::id of a non-executing thread" = none
    ∧ stoull "140737353971520" = some 140737353971520
    ∧ stoull "140737345578816" = some 140737345578816 := by
  refine ⟨by decide, by decide, ⟨_, _, _, _, rfl, rfl, ?_, ?_⟩, by decide, by decide, by decide⟩
  · decide
  · decide

/-! ### Guards alive, and the order of entry -/

/-- A marker of a guard that no event destroys is as it was after a well-scoped
run. -/
theorem ThreadRun.run_alive (evs : List ScopeEvent) :
    ∀ (s s' : ThreadRun) (live : List Nat), s.Inv live →
      wellScoped s.opened live evs = true → s.run evs = some s' →
      ∀ (j : Nat) (m : TraceMarker), s.buf.m_markers[j]? = some m →
        destroys j evs = false →
        s'.buf.m_markers[j]? = some m ∧ (j ∈ live → j ∈ s'.guards.map Prod.fst) := by
  induction evs with
  | nil =>
    intro s s' live h _ hrun j m hj _
    simp only [ThreadRun.run, Option.some.injEq] at hrun
    subst hrun
    refine ⟨hj, fun hl => ?_⟩
    rw [h.guards_eq]
    simpa using hl
  | cons e es ih =>
    intro s s' live h hs hrun j m hj hd
    have hjlt : j < s.buf.m_markers.length := (List.getElem?_eq_some.mp hj).1
    cases e with
    | enter file func line now =>
      simp only [wellScoped] at hs
      simp only [ThreadRun.run, ThreadRun.step_enter] at hrun
      simp only [destroys] at hd
      have hj' : (s.entered file func line now).buf.m_markers[j]? = some m := by
        simp only [ThreadRun.entered]
        rw [List.getElem?_append_left hjlt]; exact hj
      obtain ⟨h1, h2⟩ := ih _ _ _ (h.entered_inv file func line now) hs hrun j m hj' hd
      exact ⟨h1, fun hl => h2 (List.mem_cons_of_mem _ hl)⟩
    | leave k now =>
      simp only [wellScoped, Bool.and_eq_true] at hs
      simp only [destroys, Bool.or_eq_false_iff, beq_eq_false_iff_ne, ne_eq] at hd
      obtain ⟨mk, hmk, hstep⟩ := h.step_leave k now (by simpa using hs.1)
      simp only [ThreadRun.run, hstep] at hrun
      have hj' : (s.left k mk now).buf.m_markers[j]? = some m := by
        simp [ThreadRun.left, List.getElem?_set, hd.1, hj]
      obtain ⟨h1, h2⟩ := ih _ _ _ (h.left_inv k mk now) hs.2 hrun j m hj' hd.2
      refine ⟨h1, fun hl => h2 ?_⟩
      simp only [List.mem_filter, bne_iff_ne, ne_eq]
      exact ⟨hl, fun hjk => hd.1 hjk.symm⟩

/-- C17: on one thread, for a guard that has been constructed and is not yet
destroyed, whatever well-scoped constructions and destructions of other guards
came before and come after (no flush): the guard is alive, its marker holds the
file, label and line of the constructor and has `m_begin` and `m_end` both equal
to the clock reading of the constructor, and the two event objects of a marker
with these values carry the same timestamp. -/
theorem C17_open_guard_marker (name : String) (threadId : Nat) (A X : List ScopeEvent)
    (file func : String) (line now : Int)
    (hscoped : wellScoped 0 [] (A ++ .enter file func line now :: X) = true)
    (halive : destroys (enterLabels A).length X = false) :
    ∃ s, (ThreadRun.mk ⟨[], name, threadId⟩ 0 []).run (A ++ .enter file func line now :: X)
        = some s ∧
      (enterLabels A).length ∈ s.guards.map Prod.fst ∧
      s.buf.m_markers[(enterLabels A).length]? = some ⟨file, func, now, now, line⟩ ∧
      (TraceMarker.mk file func now now line).events s.buf.m_threadId
        = [⟨threadId, now, .B, func⟩, ⟨threadId, now, .E, func⟩] ∧
      (TraceMarker.mk file func now now line).write "" s.buf.m_threadId
        = (TraceEvent.mk threadId now .B func).render
            ++ (",\n" ++ (TraceEvent.mk threadId now .E func).render) := by
  obtain ⟨sA, liveA, hrunA, hinvA, hopA, hsA⟩ := ThreadRun.run_prefix name threadId A _ hscoped
  have hidA : sA.buf.m_threadId = threadId := by
    have hinv : (ThreadRun.mk ⟨[], name, threadId⟩ 0 []).Inv [] := ⟨rfl, rfl, by simp⟩
    have hsc : wellScoped 0 [] A = true := by
      rw [wellScoped_append, Bool.and_eq_true] at hscoped
      exact hscoped.1
    obtain ⟨s₀, hrun₀, -, -, -, -, hid⟩ := ThreadRun.run_scoped A _ _ hinv hsc
    rw [hrunA] at hrun₀
    cases hrun₀
    exact hid
  simp only [wellScoped] at hsA
  have h1 := hinvA.entered_inv file func line now
  have hslot : (sA.entered file func line now).buf.m_markers[(enterLabels A).length]?
      = some ⟨file, func, now, now, line⟩ := by
    rw [← hopA]
    simp [ThreadRun.entered, hinvA.opened_eq]
  have hsX : wellScoped (sA.entered file func line now).opened (sA.opened :: liveA) X = true :=
    hsA
  obtain ⟨s, hrunX, -, -, -, -, hid⟩ := ThreadRun.run_scoped X _ _ h1 hsX
  obtain ⟨hm, hg⟩ := ThreadRun.run_alive X _ _ _ h1 hsX hrunX _ _ hslot halive
  have hids : s.buf.m_threadId = threadId := by rw [hid]; exact hidA
  refine ⟨s, ?_, hg (by rw [hopA]; exact List.mem_cons_self _ _), hm, ?_, ?_⟩
  · rw [ThreadRun.run_append, hrunA]
    simp only [Option.bind, ThreadRun.run, ThreadRun.step_enter]
    exact hrunX
  · rw [hids]; rfl
  · rw [hids]; exact TraceMarker.write_eq_pair _ _

theorem C17_open_guard_marker_witness :
    ∃ s, (ThreadRun.mk ⟨[], "main", 7⟩ 0 []).run
        ([.enter "a.cpp" "outer" 3 10] ++ .enter "a.cpp" "mid" 5 20 ::
          [.enter "a.cpp" "inner" 8 30, .leave 2 40, .leave 0 50]) = some s ∧
      (enterLabels [.enter "a.cpp" "outer" 3 10]).length ∈ s.guards.map Prod.fst ∧
      s.buf.m_markers[(enterLabels [.enter "a.cpp" "outer" 3 10]).length]?
        = some ⟨"a.cpp", "mid", 20, 20, 5⟩ ∧
      (TraceMarker.mk "a.cpp" "mid" 20 20 5).events s.buf.m_threadId
        = [⟨7, 20, .B, "mid"⟩, ⟨7, 20, .E, "mid"⟩] ∧
      (TraceMarker.mk "a.cpp" "mid" 20 20 5).write "" s.buf.m_threadId
        = (TraceEvent.mk 7 20 .B "mid").render
            ++ (",\n" ++ (TraceEvent.mk 7 20 .E "mid").render) :=
  C17_open_guard_marker "main" 7 [.enter "a.cpp" "outer" 3 10]
    [.enter "a.cpp" "inner" 8 30, .leave 2 40, .leave 0 50] "a.cpp" "mid" 5 20
    (by decide) (by decide)

theorem Process.step_start (p : Process) (threadId : Nat) :
    p.step (.start threadId) = some
      { p with s_traceManager := ⟨p.s_traceManager.m_traceThreads ++ [⟨[], "", threadId⟩]⟩ } :=
  rfl

theorem Process.step_enter_eq (p : Process) (thread : TraceThreadManager)
    (buf : TraceThreadMarkers) (file func : String) (line now : Int)
    (h : p.s_traceManager.m_traceThreads[thread.m_markersPtr]? = some buf) :
    p.step (.enter thread file func line now) = some
      { p with
        s_traceManager := ⟨p.s_traceManager.m_traceThreads.set thread.m_markersPtr
          { buf with m_markers := buf.m_markers ++ [⟨file, func, now, now, line⟩] }⟩
        opened := p.opened + 1
        guards := (p.opened, thread, ⟨buf.m_markers.length⟩) :: p.guards } := by
  simp only [Process.step, h, ScopedTrace.ctor_eq]

theorem Process.step_leave_eq (p : Process) (k : Nat) (thread : TraceThreadManager)
    (g : ScopedTrace) (buf : TraceThreadMarkers) (m : TraceMarker) (now : Int)
    (hguard : p.guards.lookup k = some (thread, g))
    (hbuf : p.s_traceManager.m_traceThreads[thread.m_markersPtr]? = some buf)
    (hslot : buf.m_markers[g.m_marker]? = some m) :
    p.step (.leave k now) = some
      { p with
        s_traceManager := ⟨p.s_traceManager.m_traceThreads.set thread.m_markersPtr
          { buf with m_markers := buf.m_markers.set g.m_marker { m with m_end := now } }⟩
        guards := p.guards.filter (fun e => e.1 != k) } := by
  simp only [Process.step, hguard, hbuf, ScopedTrace.dtor_eq g buf m now hslot]

theorem Process.step_flush (p : Process) (h : p.stream = none) :
    p.step .flush = some
      { p with
        s_traceManager := p.s_traceManager.clearAll
        files := p.files ++ [(saveCollectedTracing p.s_traceManager).1] } := by
  simp [Process.step, h, saveCollectedTracing]

theorem lookup_of_mem_fst {β : Type} (l : List (Nat × β)) (k : Nat)
    (h : k ∈ l.map Prod.fst) : ∃ v, l.lookup k = some v ∧ (k, v) ∈ l := by
  induction l with
  | nil => simp at h
  | cons a l ih =>
    obtain ⟨j, v⟩ := a
    by_cases hk : k = j
    · subst hk
      exact ⟨v, by simp [List.lookup], List.mem_cons_self _ _⟩
    · have hmem : k ∈ l.map Prod.fst := by
        simp only [List.map_cons, List.mem_cons] at h
        rcases h with h | h
        · exact absurd h hk
        · exact h
      obtain ⟨w, hw, hin⟩ := ih hmem
      have hne : (k == j) = false := by simpa using hk
      exact ⟨w, by simp [List.lookup, hne, hw], List.mem_cons_of_mem _ hin⟩

theorem map_fst_filter_ne {β : Type} (l : List (Nat × β)) (k : Nat) :
    (l.filter (fun e => e.1 != k)).map Prod.fst
      = (l.map Prod.fst).filter (fun j => j != k) := by
  induction l with
  | nil => rfl
  | cons a l ih =>
    by_cases hk : a.1 = k <;> simp [List.filter_cons, hk, ih]

theorem activations_append (i : Nat) (xs ys : List Action) :
    activations i (xs ++ ys) = activations i xs ++ activations i ys := by
  induction xs with
  | nil => rfl
  | cons a xs ih =>
    cases a with
    | enter thread file func line now =>
      by_cases h : thread.m_markersPtr = i <;> simp [activations, h, ih]
    | start threadId => simpa [activations] using ih
    | leave k now => simpa [activations] using ih
    | flush => simpa [activations] using ih
    | flushWrite => simpa [activations] using ih
    | flushClear => simpa [activations] using ih

theorem TraceManager.entriesAt_append_empty (bs : List TraceThreadMarkers) (name : String)
    (threadId i : Nat) :
    (TraceManager.mk (bs ++ [⟨[], name, threadId⟩])).entriesAt i
      = (TraceManager.mk bs).entriesAt i := by
  simp only [TraceManager.entriesAt]
  rcases Nat.lt_trichotomy i bs.length with h | h | h
  · rw [List.getElem?_append_left h]
  · subst h
    simp
  · have h1 : (bs ++ [⟨[], name, threadId⟩] : List TraceThreadMarkers)[i]? = none := by
      apply List.getElem?_eq_none
      simp; omega
    have h2 : bs[i]? = none := List.getElem?_eq_none (by omega)
    rw [h1, h2]

theorem TraceManager.entriesAt_set (bs : List TraceThreadMarkers) (j : Nat)
    (b b' : TraceThreadMarkers) (h : bs[j]? = some b) (i : Nat) :
    (TraceManager.mk (bs.set j b')).entriesAt i
      = if i = j then b'.m_markers.map TraceMarker.entry else (TraceManager.mk bs).entriesAt i := by
  have hlt : j < bs.length := (List.getElem?_eq_some.mp h).1
  simp only [TraceManager.entriesAt]
  by_cases hi : i = j
  · subst hi
    simp [List.getElem?_set, hlt]
  · simp [List.getElem?_set, Ne.symm hi, hi]

theorem TraceManager.entriesAt_clearAll (mgr : TraceManager) (i : Nat) :
    mgr.clearAll.entriesAt i = [] := by
  simp only [TraceManager.entriesAt, TraceManager.clearAll, List.getElem?_map]
  cases mgr.m_traceThreads[i]? <;> simp

theorem entry_set_end (ms : List TraceMarker) (k : Nat) (m : TraceMarker) (now : Int)
    (hm : ms[k]? = some m) :
    (ms.set k { m with m_end := now }).map TraceMarker.entry = ms.map TraceMarker.entry := by
  apply List.ext_getElem?
  intro i
  by_cases hi : i = k
  · subst hi
    have hlt : i < ms.length := (List.getElem?_eq_some.mp hm).1
    have hget : ms[i] = m := (List.getElem?_eq_some.mp hm).2
    simp [List.getElem?_set, hlt, hget, TraceMarker.entry]
  · simp [List.getElem?_set, Ne.symm hi]

theorem Process.Sound.after_start {p : Process} {threads : Nat} {live : List Nat}
    (h : p.Sound threads live) (threadId : Nat) :
    Process.Sound
      { p with s_traceManager := ⟨p.s_traceManager.m_traceThreads ++ [⟨[], "", threadId⟩]⟩ }
      (threads + 1) live := by
  refine ⟨h.no_stream, by simp [h.registered], h.alive, ?_⟩
  intro e he
  obtain ⟨buf, hbuf, hlt⟩ := h.in_range e he
  refine ⟨buf, ?_, hlt⟩
  have hl := (List.getElem?_eq_some.mp hbuf).1
  simp only
  rw [List.getElem?_append_left hl]
  exact hbuf

theorem Process.Sound.after_enter {p : Process} {threads : Nat} {live : List Nat}
    (h : p.Sound threads live) (thread : TraceThreadManager) (buf : TraceThreadMarkers)
    (marker : TraceMarker)
    (hbuf : p.s_traceManager.m_traceThreads[thread.m_markersPtr]? = some buf) :
    Process.Sound
      { p with
        s_traceManager := ⟨p.s_traceManager.m_traceThreads.set thread.m_markersPtr
          { buf with m_markers := buf.m_markers ++ [marker] }⟩
        opened := p.opened + 1
        guards := (p.opened, thread, ⟨buf.m_markers.length⟩) :: p.guards }
      threads (p.opened :: live) := by
  have hl := (List.getElem?_eq_some.mp hbuf).1
  refine ⟨h.no_stream, by simp [h.registered], by simp [h.alive], ?_⟩
  intro e he
  simp only [List.mem_cons] at he
  rcases he with rfl | he
  · exact ⟨{ buf with m_markers := buf.m_markers ++ [marker] },
      by simp [List.getElem?_set, hl], by simp⟩
  · obtain ⟨b, hb, hlt⟩ := h.in_range e he
    by_cases hp : e.2.1.m_markersPtr = thread.m_markersPtr
    · rw [hp] at hb
      rw [hbuf] at hb
      cases hb
      exact ⟨{ buf with m_markers := buf.m_markers ++ [marker] },
        by simp [List.getElem?_set, hl, hp], by simp; omega⟩
    · exact ⟨b, by simp [List.getElem?_set, Ne.symm hp, hb], hlt⟩

theorem Process.Sound.after_leave {p : Process} {threads : Nat} {live : List Nat}
    (h : p.Sound threads live) (k : Nat) (thread : TraceThreadManager) (g : ScopedTrace)
    (buf : TraceThreadMarkers) (m : TraceMarker) (now : Int)
    (hbuf : p.s_traceManager.m_traceThreads[thread.m_markersPtr]? = some buf) :
    Process.Sound
      { p with
        s_traceManager := ⟨p.s_traceManager.m_traceThreads.set thread.m_markersPtr
          { buf with m_markers := buf.m_markers.set g.m_marker { m with m_end := now } }⟩
        guards := p.guards.filter (fun e => e.1 != k) }
      threads (live.filter (fun j => j != k)) := by
  have hl := (List.getElem?_eq_some.mp hbuf).1
  refine ⟨h.no_stream, by simp [h.registered], ?_, ?_⟩
  · simp only
    rw [map_fst_filter_ne, h.alive]
  · intro e he
    obtain ⟨b, hb, hlt⟩ := h.in_range e (List.mem_of_mem_filter he)
    by_cases hp : e.2.1.m_markersPtr = thread.m_markersPtr
    · rw [hp] at hb
      rw [hbuf] at hb
      cases hb
      exact ⟨{ buf with m_markers := buf.m_markers.set g.m_marker { m with m_end := now } },
        by simp [List.getElem?_set, hl, hp], by simpa using hlt⟩
    · exact ⟨b, by simp [List.getElem?_set, Ne.symm hp, hb], hlt⟩

theorem Process.Sound.after_flush {p : Process} {threads : Nat}
    (h : p.Sound threads []) (files : List String) :
    Process.Sound { p with s_traceManager := p.s_traceManager.clearAll, files := files }
      threads [] := by
  have hg : p.guards = [] := by
    have := h.alive
    simpa using this
  refine ⟨h.no_stream, by simp [TraceManager.clearAll, h.registered], by simp [hg], ?_⟩
  intro e he
  simp [hg] at he

/-- A sequential schedule runs to the end; the file of each flush is the text of
the registry the flush finds; what a flush finds in the buffer of a thread are
the markers of the guards constructed on that thread since the flush before, in
order, and what is left in the buffer at the end are the markers of the guards
constructed since the last flush. -/
theorem Process.run_rounds (as : List Action) :
    ∀ (p : Process) (threads : Nat) (live : List Nat) (cur : List Action),
      p.Sound threads live → sequential threads p.opened live as = true →
      (∀ i, p.s_traceManager.entriesAt i = activations i cur) →
      ∃ p', p.run as = some p' ∧
        p'.files = p.files ++ (p.snapshots as).map (fun R => (saveCollectedTracing R).1) ∧
        (∀ i, (p.snapshots as).map (fun R => R.entriesAt i)
          = (splitRounds cur as).1.map (activations i)) ∧
        (∀ i, p'.s_traceManager.entriesAt i = activations i (splitRounds cur as).2) := by
  induction as with
  | nil =>
    intro p threads live cur _ _ hcur
    exact ⟨p, rfl, by simp [Process.snapshots], by simp [Process.snapshots, splitRounds],
      by simpa [splitRounds] using hcur⟩
  | cons a as ih =>
    intro p threads live cur h hs hcur
    cases a with
    | start threadId =>
      simp only [sequential] at hs
      have hcur' : ∀ i, (TraceManager.mk
          (p.s_traceManager.m_traceThreads ++ [⟨[], "", threadId⟩])).entriesAt i
          = activations i (cur ++ [.start threadId]) := by
        intro i
        rw [TraceManager.entriesAt_append_empty, activations_append]
        simpa [activations] using hcur i
      obtain ⟨p', hrun, hfiles, hsnaps, hrest⟩ :=
        ih _ _ _ _ (h.after_start threadId) hs hcur'
      refine ⟨p', ?_, ?_, ?_, ?_⟩
      · simp only [Process.run, Process.step_start]; exact hrun
      · simpa [Process.snapshots, Process.step_start] using hfiles
      · intro i
        simpa [Process.snapshots, Process.step_start, splitRounds] using hsnaps i
      · intro i
        simpa [splitRounds] using hrest i
    | enter thread file func line now =>
      simp only [sequential, Bool.and_eq_true, decide_eq_true_eq] at hs
      have hlt : thread.m_markersPtr < p.s_traceManager.m_traceThreads.length := by
        rw [h.registered]; exact hs.1
      obtain ⟨buf, hbuf⟩ : ∃ buf, p.s_traceManager.m_traceThreads[thread.m_markersPtr]?
          = some buf := ⟨_, List.getElem?_eq_getElem hlt⟩
      have hstep := Process.step_enter_eq p thread buf file func line now hbuf
      have hcur' : ∀ i, (TraceManager.mk (p.s_traceManager.m_traceThreads.set
          thread.m_markersPtr
          { buf with m_markers := buf.m_markers ++ [⟨file, func, now, now, line⟩] })).entriesAt i
          = activations i (cur ++ [.enter thread file func line now]) := by
        intro i
        rw [TraceManager.entriesAt_set _ _ _ _ hbuf, activations_append, ← hcur i]
        by_cases hi : i = thread.m_markersPtr
        · subst hi
          simp [activations, TraceManager.entriesAt, hbuf, TraceMarker.entry]
        · simp [activations, hi, Ne.symm hi]
      obtain ⟨p', hrun, hfiles, hsnaps, hrest⟩ :=
        ih _ _ _ _ (h.after_enter thread buf ⟨file, func, now, now, line⟩ hbuf) hs.2 hcur'
      refine ⟨p', ?_, ?_, ?_, ?_⟩
      · simp only [Process.run, hstep]; exact hrun
      · simpa [Process.snapshots, hstep] using hfiles
      · intro i
        simpa [Process.snapshots, hstep, splitRounds] using hsnaps i
      · intro i
        simpa [splitRounds] using hrest i
    | leave k now =>
      simp only [sequential, Bool.and_eq_true] at hs
      have hk : k ∈ p.guards.map Prod.fst := by
        rw [h.alive]; simpa using hs.1
      obtain ⟨⟨thread, g⟩, hlook, hmem⟩ := lookup_of_mem_fst p.guards k hk
      obtain ⟨buf, hbuf, hslotlt⟩ := h.in_range _ hmem
      obtain ⟨m, hslot⟩ : ∃ m, buf.m_markers[g.m_marker]? = some m :=
        ⟨_, List.getElem?_eq_getElem hslotlt⟩
      have hstep := Process.step_leave_eq p k thread g buf m now hlook hbuf hslot
      have hcur' : ∀ i, (TraceManager.mk (p.s_traceManager.m_traceThreads.set
          thread.m_markersPtr
          { buf with
            m_markers := buf.m_markers.set g.m_marker { m with m_end := now } })).entriesAt i
          = activations i (cur ++ [.leave k now]) := by
        intro i
        rw [TraceManager.entriesAt_set _ _ _ _ hbuf, activations_append, ← hcur i]
        by_cases hi : i = thread.m_markersPtr
        · subst hi
          simp [activations, TraceManager.entriesAt, hbuf, entry_set_end _ _ _ _ hslot]
        · simp [activations, hi]
      obtain ⟨p', hrun, hfiles, hsnaps, hrest⟩ :=
        ih _ _ _ _ (h.after_leave k thread g buf m now hbuf) hs.2 hcur'
      refine ⟨p', ?_, ?_, ?_, ?_⟩
      · simp only [Process.run, hstep]; exact hrun
      · simpa [Process.snapshots, hstep] using hfiles
      · intro i
        simpa [Process.snapshots, hstep, splitRounds] using hsnaps i
      · intro i
        simpa [splitRounds] using hrest i
    | flush =>
      simp only [sequential, Bool.and_eq_true, List.isEmpty_iff] at hs
      obtain ⟨hlive, hs⟩ := hs
      subst hlive
      have hstep := Process.step_flush p h.no_stream
      have hcur' : ∀ i, p.s_traceManager.clearAll.entriesAt i = activations i [] := by
        intro i
        rw [TraceManager.entriesAt_clearAll]; rfl
      obtain ⟨p', hrun, hfiles, hsnaps, hrest⟩ :=
        ih _ _ _ _ (h.after_flush (p.files ++ [(saveCollectedTracing p.s_traceManager).1]))
          hs hcur'
      refine ⟨p', ?_, ?_, ?_, ?_⟩
      · simp only [Process.run, hstep]; exact hrun
      · simpa [Process.snapshots, hstep] using hfiles
      · intro i
        simp only [Process.snapshots, hstep, splitRounds, List.singleton_append, List.map_cons,
          List.cons.injEq]
        exact ⟨hcur i, hsnaps i⟩
      · intro i
        simpa [splitRounds] using hrest i
    | flushWrite => simp [sequential] at hs
    | flushClear => simp [sequential] at hs

theorem splitRounds_activations (i : Nat) (as : List Action) :
    ∀ cur : List Action,
      (splitRounds cur as).1.flatMap (activations i) ++ activations i (splitRounds cur as).2
        = activations i (cur ++ as) := by
  induction as with
  | nil => intro cur; simp [splitRounds]
  | cons a as ih =>
    intro cur
    cases a with
    | flush =>
      have := ih []
      simp only [List.nil_append] at this
      simp only [splitRounds, List.flatMap_cons, List.append_assoc, this, activations_append]
      simp [activations]
    | start threadId =>
      have := ih (cur ++ [.start threadId])
      simpa [splitRounds] using this
    | enter thread file func line now =>
      have := ih (cur ++ [.enter thread file func line now])
      simpa [splitRounds] using this
    | leave k now =>
      have := ih (cur ++ [.leave k now])
      simpa [splitRounds] using this
    | flushWrite =>
      have := ih (cur ++ [.flushWrite])
      simpa [splitRounds] using this
    | flushClear =>
      have := ih (cur ++ [.flushClear])
      simpa [splitRounds] using this

theorem TraceManager.mem_owned (mgr : TraceManager) (i s : Nat) (b : TraceThreadMarkers)
    (m : TraceMarker) (hb : mgr.m_traceThreads[i]? = some b) (hm : b.m_markers[s]? = some m) :
    (b.m_threadId, m) ∈ mgr.owned := by
  simp only [TraceManager.owned, List.mem_flatMap, List.mem_map]
  exact ⟨b, List.getElem?_mem hb, m, List.getElem?_mem hm, rfl⟩

/-- C11: with every flush a single step, in a schedule where no guard is alive at
a flush, the run goes through and the file of each flush is the text of the
registry that flush finds; per thread, what the j-th flush finds (and writes, as
one B/E pair per marker) are the markers of the guards constructed on that
thread after the flush before and before this one, in order of construction;
and the markers of all flushes, flush after flush, followed by those still in
the buffer, are the guards constructed on the thread, each once. -/
theorem C11_each_marker_in_one_flush (as : List Action)
    (h : sequential 0 0 [] as = true) :
    ∃ p, Process.init.run as = some p ∧
      p.files = (Process.init.snapshots as).map (fun R => (saveCollectedTracing R).1) ∧
      (∀ R ∈ Process.init.snapshots as,
        (saveCollectedTracing R).1
            = "[\n" ++ ",\n".intercalate (R.events.map TraceEvent.render) ++ "\n]\n"
        ∧ ∀ (i s : Nat) (b : TraceThreadMarkers) (m : TraceMarker),
            R.m_traceThreads[i]? = some b → b.m_markers[s]? = some m →
            ∃ n, R.events[2 * n]? = some ⟨b.m_threadId, m.m_begin, .B, m.m_func⟩ ∧
              R.events[2 * n + 1]? = some ⟨b.m_threadId, m.m_end, .E, m.m_func⟩) ∧
      (∀ i, (Process.init.snapshots as).map (fun R => R.entriesAt i)
        = (splitRounds [] as).1.map (activations i)) ∧
      (∀ i, p.s_traceManager.entriesAt i = activations i (splitRounds [] as).2) ∧
      (∀ i, (Process.init.snapshots as).flatMap (fun R => R.entriesAt i)
          ++ p.s_traceManager.entriesAt i = activations i as) := by
  have hsound : Process.init.Sound 0 [] :=
    ⟨rfl, rfl, rfl, by intro e he; simp [Process.init] at he⟩
  have hcur : ∀ i, Process.init.s_traceManager.entriesAt i = activations i [] := by
    intro i; rfl
  obtain ⟨p, hrun, hfiles, hsnaps, hrest⟩ := Process.run_rounds as _ _ _ [] hsound h hcur
  refine ⟨p, hrun, by simpa [Process.init] using hfiles, ?_, hsnaps, hrest, ?_⟩
  · intro R _
    refine ⟨saveCollectedTracing_events R, ?_⟩
    intro i s b m hb hm
    obtain ⟨n, hn⟩ := List.getElem?_of_mem (TraceManager.mem_owned R i s b m hb hm)
    exact ⟨n, events_pair _ n _ _ hn⟩
  · intro i
    have hflat : (Process.init.snapshots as).flatMap (fun R => R.entriesAt i)
        = (splitRounds [] as).1.flatMap (activations i) := by
      have := congrArg List.flatten (hsnaps i)
      simpa [List.flatMap] using this
    rw [hflat, hrest i]
    simpa using splitRounds_activations i as []

theorem C11_each_marker_in_one_flush_witness :
    ∃ p, Process.init.run
        [.start 7, .enter ⟨0⟩ "a.cpp" "load" 3 10, .leave 0 20, .flush,
          .enter ⟨0⟩ "a.cpp" "draw" 5 30, .leave 1 40, .flush] = some p ∧
      p.files = [
        "[\n" ++ (TraceMarker.mk "a.cpp" "load" 10 20 3).write "" 7 ++ "\n]\n",
        "[\n" ++ (TraceMarker.mk "a.cpp" "draw" 30 40 5).write "" 7 ++ "\n]\n"] := by
  obtain ⟨p, hrun, -, -, -, -, -⟩ := C11_each_marker_in_one_flush
    [.start 7, .enter ⟨0⟩ "a.cpp" "load" 3 10, .leave 0 20, .flush,
      .enter ⟨0⟩ "a.cpp" "draw" 5 30, .leave 1 40, .flush] (by decide)
  refine ⟨p, hrun, ?_⟩
  have hp : Process.init.run
      [.start 7, .enter ⟨0⟩ "a.cpp" "load" 3 10, .leave 0 20, .flush,
        .enter ⟨0⟩ "a.cpp" "draw" 5 30, .leave 1 40, .flush]
      = some ⟨⟨[⟨[], "", 7⟩]⟩, 2, [], none,
          ["[\n" ++ (TraceMarker.mk "a.cpp" "load" 10 20 3).write "" 7 ++ "\n]\n",
           "[\n" ++ (TraceMarker.mk "a.cpp" "draw" 30 40 5).write "" 7 ++ "\n]\n"]⟩ := by
    decide
  rw [hp] at hrun
  cases hrun
  rfl

/-! ### The destructor of a guard with a valid pointer -/

theorem lookup_filter_ne {β : Type} (l : List (Nat × β)) (k j : Nat) (h : j ≠ k) :
    (l.filter (fun e => e.1 != k)).lookup j = l.lookup j := by
  induction l with
  | nil => rfl
  | cons a l ih =>
    obtain ⟨i, v⟩ := a
    by_cases hi : i = k
    · subst hi
      have hne : (j == i) = false := by simpa using h
      simp [List.filter_cons, List.lookup, hne, ih]
    · by_cases hj : j = i
      · subst hj
        simp [List.filter_cons, hi, List.lookup]
      · have hne : (j == i) = false := by simpa using hj
        simp [List.filter_cons, hi, List.lookup, hne, ih]

theorem lookup_cons_ne {β : Type} (l : List (Nat × β)) (k j : Nat) (v : β) (h : j ≠ k) :
    ((k, v) :: l).lookup j = l.lookup j := by
  have hne : (j == k) = false := by simpa using h
  simp [List.lookup, hne]

theorem Process.Owns.of_start {p : Process} {valid : List (Nat × TraceThreadManager × TraceMarker)}
    (h : p.Owns valid) (threadId : Nat) :
    Process.Owns
      { p with s_traceManager := ⟨p.s_traceManager.m_traceThreads ++ [⟨[], "", threadId⟩]⟩ }
      valid := by
  refine ⟨h.fresh, ?_, h.apart⟩
  intro e he
  obtain ⟨g, buf, hg, hbuf, hslot⟩ := h.own e he
  refine ⟨g, buf, hg, ?_, hslot⟩
  have hl := (List.getElem?_eq_some.mp hbuf).1
  simp only
  rw [List.getElem?_append_left hl]
  exact hbuf

theorem Process.Owns.of_enter {p : Process} {valid : List (Nat × TraceThreadManager × TraceMarker)}
    (h : p.Owns valid) (thread : TraceThreadManager) (buf : TraceThreadMarkers)
    (marker : TraceMarker)
    (hbuf : p.s_traceManager.m_traceThreads[thread.m_markersPtr]? = some buf) :
    Process.Owns
      { p with
        s_traceManager := ⟨p.s_traceManager.m_traceThreads.set thread.m_markersPtr
          { buf with m_markers := buf.m_markers ++ [marker] }⟩
        opened := p.opened + 1
        guards := (p.opened, thread, ⟨buf.m_markers.length⟩) :: p.guards }
      ((p.opened, thread, marker) :: valid) := by
  have hl := (List.getElem?_eq_some.mp hbuf).1
  have hold : ∀ e ∈ valid, ∀ g, p.guards.lookup e.1 = some (e.2.1, g) →
      e.2.1.m_markersPtr = thread.m_markersPtr → g.m_marker < buf.m_markers.length := by
    intro e he g hg hp
    obtain ⟨g', b, hg', hb, hslot⟩ := h.own e he
    rw [hg] at hg'
    cases hg'
    rw [hp, hbuf] at hb
    cases hb
    exact (List.getElem?_eq_some.mp hslot).1
  have hlook : ∀ e ∈ valid, ((p.opened, thread, ScopedTrace.mk buf.m_markers.length) ::
      p.guards).lookup e.1 = p.guards.lookup e.1 := by
    intro e he
    exact lookup_cons_ne _ _ _ _ (Nat.ne_of_lt (h.fresh e he))
  refine ⟨?_, ?_, ?_⟩
  · intro e he
    simp only [List.mem_cons] at he
    rcases he with rfl | he
    · simp
    · have := h.fresh e he
      simp only
      omega
  · intro e he
    simp only [List.mem_cons] at he
    rcases he with rfl | he
    · refine ⟨⟨buf.m_markers.length⟩, { buf with m_markers := buf.m_markers ++ [marker] },
        by simp [List.lookup], by simp [List.getElem?_set, hl], by simp⟩
    · obtain ⟨g, b, hg, hb, hslot⟩ := h.own e he
      by_cases hp : e.2.1.m_markersPtr = thread.m_markersPtr
      · have hb' := hb
        rw [hp, hbuf] at hb'
        cases hb'
        refine ⟨g, { buf with m_markers := buf.m_markers ++ [marker] }, ?_, ?_, ?_⟩
        · simp only
          rw [hlook e he]
          exact hg
        · simp [List.getElem?_set, hl, hp]
        · have hlt := (List.getElem?_eq_some.mp hslot).1
          simp only
          rw [List.getElem?_append_left hlt]
          exact hslot
      · refine ⟨g, b, ?_, ?_, hslot⟩
        · simp only
          rw [hlook e he]
          exact hg
        · simp [List.getElem?_set, Ne.symm hp, hb]
  · intro e he e' he' g g' hg hg' hne hp
    simp only [List.mem_cons] at he he'
    rcases he with rfl | he <;> rcases he' with rfl | he'
    · exact absurd rfl hne
    · simp only at hg hg' hp
      rw [hlook e' he'] at hg'
      have hlt := hold e' he' g' hg' hp.symm
      simp [List.lookup] at hg
      subst hg
      simp only
      omega
    · simp only at hg hg' hp
      rw [hlook e he] at hg
      have hlt := hold e he g hg hp
      simp [List.lookup] at hg'
      subst hg'
      simp only
      omega
    · simp only at hg hg'
      rw [hlook e he] at hg
      rw [hlook e' he'] at hg'
      exact h.apart e he e' he' g g' hg hg' hne hp

theorem Process.Owns.of_leave {p : Process} {valid : List (Nat × TraceThreadManager × TraceMarker)}
    (h : p.Owns valid) (e₀ : Nat × TraceThreadManager × TraceMarker) (he₀ : e₀ ∈ valid)
    (g₀ : ScopedTrace) (buf : TraceThreadMarkers) (m : TraceMarker) (now : Int)
    (hguard : p.guards.lookup e₀.1 = some (e₀.2.1, g₀))
    (hbuf : p.s_traceManager.m_traceThreads[e₀.2.1.m_markersPtr]? = some buf) :
    Process.Owns
      { p with
        s_traceManager := ⟨p.s_traceManager.m_traceThreads.set e₀.2.1.m_markersPtr
          { buf with m_markers := buf.m_markers.set g₀.m_marker { m with m_end := now } }⟩
        guards := p.guards.filter (fun e => e.1 != e₀.1) }
      (valid.filter (fun e => e.1 != e₀.1)) := by
  have hl := (List.getElem?_eq_some.mp hbuf).1
  have hsub : ∀ e ∈ valid.filter (fun e => e.1 != e₀.1), e ∈ valid ∧ e.1 ≠ e₀.1 := by
    intro e he
    have := List.mem_filter.mp he
    exact ⟨this.1, by simpa using this.2⟩
  refine ⟨?_, ?_, ?_⟩
  · intro e he
    exact h.fresh e (hsub e he).1
  · intro e he
    obtain ⟨hin, hne⟩ := hsub e he
    obtain ⟨g, b, hg, hb, hslot⟩ := h.own e hin
    have hg2 : (p.guards.filter (fun e => e.1 != e₀.1)).lookup e.1 = some (e.2.1, g) := by
      rw [lookup_filter_ne _ _ _ hne]
      exact hg
    by_cases hp : e.2.1.m_markersPtr = e₀.2.1.m_markersPtr
    · have hb' := hb
      rw [hp, hbuf] at hb'
      cases hb'
      have hdiff : g.m_marker ≠ g₀.m_marker := h.apart e hin e₀ he₀ g g₀ hg hguard hne hp
      refine ⟨g, { buf with m_markers := buf.m_markers.set g₀.m_marker { m with m_end := now } },
        hg2, ?_, ?_⟩
      · simp [List.getElem?_set, hl, hp]
      · simp only
        rw [List.getElem?_set_ne (Ne.symm hdiff)]
        exact hslot
    · exact ⟨g, b, hg2, by simp [List.getElem?_set, Ne.symm hp, hb], hslot⟩
  · intro e he e' he' g g' hg hg' hne hp
    obtain ⟨hin, hne₁⟩ := hsub e he
    obtain ⟨hin', hne₂⟩ := hsub e' he'
    simp only at hg hg'
    rw [lookup_filter_ne _ _ _ hne₁] at hg
    rw [lookup_filter_ne _ _ _ hne₂] at hg'
    exact h.apart e hin e' hin' g g' hg hg' hne hp

theorem Process.Owns.nil (p : Process) : p.Owns [] :=
  ⟨by simp, by simp, by simp⟩

/-- A schedule that `validHandles` accepts runs to the end, and the guards it
leaves valid own their slots. -/
theorem Process.run_owns (as : List Action) :
    ∀ (p : Process) (valid valid' : List (Nat × TraceThreadManager × TraceMarker)),
      p.Owns valid →
      validHandles p.s_traceManager.m_traceThreads.length p.opened p.stream.isSome valid as
        = some valid' →
      ∃ p', p.run as = some p' ∧ p'.Owns valid' := by
  induction as with
  | nil =>
    intro p valid valid' h hv
    simp only [validHandles, Option.some.injEq] at hv
    subst hv
    exact ⟨p, rfl, h⟩
  | cons a as ih =>
    intro p valid valid' h hv
    cases a with
    | start threadId =>
      simp only [validHandles] at hv
      obtain ⟨p', hrun, hown⟩ := ih _ valid valid' (h.of_start threadId) (by simpa using hv)
      exact ⟨p', by simp only [Process.run, Process.step_start]; exact hrun, hown⟩
    | enter thread file func line now =>
      simp only [validHandles] at hv
      split at hv
      · rename_i hlt
        obtain ⟨buf, hbuf⟩ : ∃ buf, p.s_traceManager.m_traceThreads[thread.m_markersPtr]?
            = some buf := ⟨_, List.getElem?_eq_getElem hlt⟩
        obtain ⟨p', hrun, hown⟩ := ih _ _ valid'
          (h.of_enter thread buf ⟨file, func, now, now, line⟩ hbuf) (by simpa using hv)
        exact ⟨p', by
          simp only [Process.run, Process.step_enter_eq p thread buf file func line now hbuf]
          exact hrun, hown⟩
      · cases hv
    | leave k now =>
      simp only [validHandles] at hv
      split at hv
      · rename_i hany
        obtain ⟨e₀, he₀, hk⟩ := List.any_eq_true.mp hany
        have hk : e₀.1 = k := by simpa using hk
        subst hk
        obtain ⟨g, buf, hg, hbuf, hslot⟩ := h.own e₀ he₀
        obtain ⟨p', hrun, hown⟩ := ih _ _ valid'
          (h.of_leave e₀ he₀ g buf e₀.2.2 now hg hbuf) (by simpa using hv)
        exact ⟨p', by
          simp only [Process.run,
            Process.step_leave_eq p e₀.1 e₀.2.1 g buf e₀.2.2 now hg hbuf hslot]
          exact hrun, hown⟩
      · cases hv
    | flush =>
      simp only [validHandles] at hv
      split at hv
      · cases hv
      · rename_i hw
        have hs : p.stream = none := by
          cases hst : p.stream with
          | none => rfl
          | some st => simp [hst] at hw
        obtain ⟨p', hrun, hown⟩ := ih
          { p with
            s_traceManager := p.s_traceManager.clearAll
            files := p.files ++ [(saveCollectedTracing p.s_traceManager).1] }
          [] valid' (Process.Owns.nil _) (by simpa [TraceManager.clearAll, hs] using hv)
        exact ⟨p', by simp only [Process.run, Process.step_flush p hs]; exact hrun, hown⟩
    | flushWrite =>
      simp only [validHandles] at hv
      split at hv
      · cases hv
      · rename_i hw
        have hs : p.stream = none := by
          cases hst : p.stream with
          | none => rfl
          | some st => simp [hst] at hw
        obtain ⟨p', hrun, hown⟩ := ih
          { p with stream := some (p.s_traceManager.writeAll ("" ++ "[\n")) }
          valid valid' ⟨h.fresh, h.own, h.apart⟩ (by simpa using hv)
        exact ⟨p', by simp only [Process.run, Process.step, hs]; exact hrun, hown⟩
    | flushClear =>
      simp only [validHandles] at hv
      split at hv
      · rename_i hw
        obtain ⟨st, hs⟩ : ∃ st, p.stream = some st := by
          cases hst : p.stream with
          | none => simp [hst] at hw
          | some st => exact ⟨st, rfl⟩
        obtain ⟨p', hrun, hown⟩ := ih
          { p with
            s_traceManager := p.s_traceManager.clearAll
            stream := none
            files := p.files ++ [st ++ "\n]\n"] }
          [] valid' (Process.Owns.nil _) (by simpa [TraceManager.clearAll] using hv)
        exact ⟨p', by simp only [Process.run, Process.step, hs]; exact hrun, hown⟩
      · cases hv

/-- The destructor of a guard whose pointer designates the marker `m`: one store
to `m_end`, and the frame around it. -/
theorem Process.leave_frame (p : Process) (k : Nat) (thread : TraceThreadManager)
    (g : ScopedTrace) (buf : TraceThreadMarkers) (m : TraceMarker) (now : Int)
    (hguard : p.guards.lookup k = some (thread, g))
    (hbuf : p.s_traceManager.m_traceThreads[thread.m_markersPtr]? = some buf)
    (hslot : buf.m_markers[g.m_marker]? = some m) :
    ∃ buf' p',
      g.dtor buf now = some buf' ∧
      buf'.m_markers[g.m_marker]? = some ⟨m.m_file, m.m_func, m.m_begin, now, m.m_line⟩ ∧
      buf'.m_markers.length = buf.m_markers.length ∧
      (∀ i, i ≠ g.m_marker → buf'.m_markers[i]? = buf.m_markers[i]?) ∧
      buf'.m_threadName = buf.m_threadName ∧ buf'.m_threadId = buf.m_threadId ∧
      p.step (.leave k now) = some p' ∧
      p'.s_traceManager.m_traceThreads[thread.m_markersPtr]? = some buf' ∧
      p'.s_traceManager.m_traceThreads.length = p.s_traceManager.m_traceThreads.length ∧
      (∀ i, i ≠ thread.m_markersPtr →
        p'.s_traceManager.m_traceThreads[i]? = p.s_traceManager.m_traceThreads[i]?) ∧
      p'.opened = p.opened ∧ p'.stream = p.stream ∧ p'.files = p.files ∧
      p'.guards = p.guards.filter (fun e => e.1 != k) := by
  have hlt : g.m_marker < buf.m_markers.length := (List.getElem?_eq_some.mp hslot).1
  have hlt' : thread.m_markersPtr < p.s_traceManager.m_traceThreads.length :=
    (List.getElem?_eq_some.mp hbuf).1
  have hd := ScopedTrace.dtor_eq g buf m now hslot
  have hstep : p.step (.leave k now) = some
      { p with
        s_traceManager := ⟨p.s_traceManager.m_traceThreads.set thread.m_markersPtr
          { buf with m_markers := buf.m_markers.set g.m_marker { m with m_end := now } }⟩
        guards := p.guards.filter (fun e => e.1 != k) } := by
    simp only [Process.step, hguard, hbuf, hd]
  refine ⟨_, _, hd, ?_, ?_, ?_, rfl, rfl, hstep, ?_, ?_, ?_, rfl, rfl, rfl, rfl⟩
  · simp [List.getElem?_set, hlt]
  · simp
  · intro i hi
    simp [List.getElem?_set, Ne.symm hi]
  · simp [List.getElem?_set, hlt']
  · simp
  · intro i hi
    simp [List.getElem?_set, Ne.symm hi]

/-- The schedule in which a flush runs while guard 0 is alive and guard 0 is
destroyed after a later guard has taken slot 0 again is no defined execution:
the pointer of guard 0 is invalid from the clear on. -/
theorem validHandles_stale_leave :
    validHandles 0 0 false []
      [.start 7, .enter ⟨0⟩ "main.cpp" "first" 12 100, .flush,
        .enter ⟨0⟩ "main.cpp" "second" 20 200, .leave 0 300] = none := by
  decide

/-- C18: destroying a guard has no effect other than stamping the end of its own
marker.  From any registry, without guards alive, take any schedule that is a
defined execution (`validHandles` accepts it) and any guard `k` that the schedule
leaves alive with a valid pointer, `own` being the marker its constructor left.
The schedule runs to a state `p` in which the pointer of the guard designates a
slot of the buffer of its thread, and that slot holds `own`.  The destructor
then stores the clock reading in the `m_end` of that slot: the marker keeps file,
label, line and begin, every other marker is as it was, as are the number of
markers, the thread name and the thread id; in the process the other buffers,
the number of registered buffers, the count of activations and the files written
are as they were, and only this guard is off the list of the guards alive. -/
theorem C18_destructor_stamps_end_only (mgr : TraceManager) (opened : Nat)
    (stream : Option String) (files : List String) (as : List Action)
    (valid : List (Nat × TraceThreadManager × TraceMarker))
    (k : Nat) (thread : TraceThreadManager) (own : TraceMarker) (now : Int)
    (hvalid : validHandles mgr.m_traceThreads.length opened stream.isSome [] as = some valid)
    (hk : (k, thread, own) ∈ valid) :
    ∃ p g buf buf' p',
      (Process.mk mgr opened [] stream files).run as = some p ∧
      p.guards.lookup k = some (thread, g) ∧
      p.s_traceManager.m_traceThreads[thread.m_markersPtr]? = some buf ∧
      buf.m_markers[g.m_marker]? = some own ∧
      g.dtor buf now = some buf' ∧
      buf'.m_markers[g.m_marker]?
        = some ⟨own.m_file, own.m_func, own.m_begin, now, own.m_line⟩ ∧
      buf'.m_markers.length = buf.m_markers.length ∧
      (∀ i, i ≠ g.m_marker → buf'.m_markers[i]? = buf.m_markers[i]?) ∧
      buf'.m_threadName = buf.m_threadName ∧ buf'.m_threadId = buf.m_threadId ∧
      p.step (.leave k now) = some p' ∧
      p'.s_traceManager.m_traceThreads[thread.m_markersPtr]? = some buf' ∧
      p'.s_traceManager.m_traceThreads.length = p.s_traceManager.m_traceThreads.length ∧
      (∀ i, i ≠ thread.m_markersPtr →
        p'.s_traceManager.m_traceThreads[i]? = p.s_traceManager.m_traceThreads[i]?) ∧
      p'.opened = p.opened ∧ p'.stream = p.stream ∧ p'.files = p.files ∧
      p'.guards = p.guards.filter (fun e => e.1 != k) := by
  obtain ⟨p, hrun, hown⟩ := Process.run_owns as (Process.mk mgr opened [] stream files) []
    valid (Process.Owns.nil _) hvalid
  obtain ⟨g, buf, hg, hbuf, hslot⟩ := hown.own (k, thread, own) hk
  obtain ⟨buf', p', h⟩ := Process.leave_frame p k thread g buf own now hg hbuf hslot
  exact ⟨p, g, buf, buf', p', hrun, hg, hbuf, hslot, h⟩

theorem C18_destructor_stamps_end_only_witness :
    ∃ p g buf buf' p',
      (Process.mk ⟨[⟨[⟨"a.cpp", "old", 1, 2, 3⟩], "io", 7⟩]⟩ 0 [] none []).run
        [.enter ⟨0⟩ "main.cpp" "first" 12 100, .leave 0 150, .flush, .start 9,
          .enter ⟨0⟩ "main.cpp" "second" 20 200, .enter ⟨1⟩ "w.cpp" "job" 5 210,
          .enter ⟨0⟩ "main.cpp" "third" 30 220, .leave 2 230] = some p ∧
      p.guards.lookup 1 = some (⟨0⟩, g) ∧
      p.s_traceManager.m_traceThreads[0]? = some buf ∧
      buf.m_markers[g.m_marker]? = some ⟨"main.cpp", "second", 200, 200, 20⟩ ∧
      g.dtor buf 300 = some buf' ∧
      buf'.m_markers[g.m_marker]? = some ⟨"main.cpp", "second", 200, 300, 20⟩ ∧
      buf'.m_markers.length = buf.m_markers.length ∧
      (∀ i, i ≠ g.m_marker → buf'.m_markers[i]? = buf.m_markers[i]?) ∧
      buf'.m_threadName = buf.m_threadName ∧ buf'.m_threadId = buf.m_threadId ∧
      p.step (.leave 1 300) = some p' ∧
      p'.s_traceManager.m_traceThreads[0]? = some buf' ∧
      p'.s_traceManager.m_traceThreads.length = p.s_traceManager.m_traceThreads.length ∧
      (∀ i, i ≠ 0 →
        p'.s_traceManager.m_traceThreads[i]? = p.s_traceManager.m_traceThreads[i]?) ∧
      p'.opened = p.opened ∧ p'.stream = p.stream ∧ p'.files = p.files ∧
      p'.guards = p.guards.filter (fun e => e.1 != 1) :=
  C18_destructor_stamps_end_only ⟨[⟨[⟨"a.cpp", "old", 1, 2, 3⟩], "io", 7⟩]⟩ 0 none []
    [.enter ⟨0⟩ "main.cpp" "first" 12 100, .leave 0 150, .flush, .start 9,
      .enter ⟨0⟩ "main.cpp" "second" 20 200, .enter ⟨1⟩ "w.cpp" "job" 5 210,
      .enter ⟨0⟩ "main.cpp" "third" 30 220, .leave 2 230]
    [(3, ⟨0⟩, ⟨"main.cpp", "third", 220, 220, 30⟩),
      (1, ⟨0⟩, ⟨"main.cpp", "second", 200, 200, 20⟩)]
    1 ⟨0⟩ ⟨"main.cpp", "second", 200, 200, 20⟩ 300 (by decide) (by decide)

end kitten
